import Mathlib

/-!
Distributed ANN serving pipeline: aggregator merge, gating, ownership, wire protocol,
hybrid split, recall and start-up argument handling.

Shallow embedding of `src/aggregator.cpp`, `src/search.cpp` and `src/sharded.cpp`.

Conventions of the embedding

* `float` distances are only ever compared with `<`.  They are taken from an arbitrary
  linearly ordered type `α`; the value `std::numeric_limits<float>::max()` is the
  parameter `fltMax : α`.  The non-NaN binary32 values form such an order.
* A C array or pointer view is a `List`; reading outside it is undefined behaviour and
  makes the embedded function return `none`.
* Heap arrays obtained from `new[]` are identified by a natural-number handle.
* Sizes, counters and indices are unbounded (`Nat`, `Int`), the sizes of `Config`
  non-negative; where a conversion or an overflow of a machine integer matters it is
  written out with `wrap64` or `wrap32`.
* Time stamps (`now()`), printing and the data of broadcast query blocks are left out.
-/

namespace Distributed

/-! ## src/aggregator.cpp : data model -/

/-- The struct `PartialResult` of `aggregator.cpp`: two pointer views into a received
block, the ownership flag and the two base pointers (as allocation handles). -/
structure PartialResult (α : Type) where
  dists : List α
  ids : List Int
  own_fields : Bool
  base_dists : Nat
  base_ids : Nat
deriving DecidableEq, Repr

/-- The three locals `bestDist`, `bestId`, `fromShard` of one `topi` iteration of
`merge_results`. -/
structure Best (α : Type) where
  bestDist : α
  bestId : Int
  fromShard : Int
deriving DecidableEq, Repr

/-- The value of the three locals at the top of every `topi` iteration
(lines 24-26): `bestDist = max()`, `bestId = -1`, `fromShard = -1`. -/
def Best.init {α : Type} (fltMax : α) : Best α := ⟨fltMax, -1, -1⟩

/-- Body of the inner `for (shard ...)` loop of `merge_results` (lines 29-35). -/
def scan_shard {α : Type} [LinearOrder α] (results : List (PartialResult α))
    (counter : List Nat) (k : Nat) (b : Best α) (shard : Nat) : Option (Best α) :=
  match counter[shard]? with
  | none => none
  | some c =>
    if c = k then some b
    else
      match results[shard]? with
      | none => none
      | some r =>
        match r.dists[c]? with
        | none => none
        | some d =>
          if d < b.bestDist then
            match r.ids[c]? with
            | none => none
            | some i => some ⟨d, i, (shard : Int)⟩
          else some b

/-- The inner loop of `merge_results` (lines 24-36): scan shards `0 .. nshards-1`. -/
def scan_all {α : Type} [LinearOrder α] (fltMax : α) (results : List (PartialResult α))
    (counter : List Nat) (nshards k : Nat) : Option (Best α) :=
  (List.range nshards).foldlM (scan_shard results counter k) (Best.init fltMax)

/-- The outer `for (topi ...)` loop of `merge_results` (lines 23-40), with `iters`
iterations still to run; `answers` holds `answers[0..topi)`.  The statement
`counter[fromShard]++` with `fromShard` outside `[0, nshards)` is an out-of-bounds
access. -/
def merge_loop {α : Type} [LinearOrder α] (fltMax : α) (results : List (PartialResult α))
    (nshards k : Nat) : Nat → List Nat → List Int → Option (List Int)
  | 0, _, answers => some answers
  | iters + 1, counter, answers =>
    match scan_all fltMax results counter nshards k with
    | none => none
    | some b =>
      if b.fromShard < 0 then none
      else
        match counter[b.fromShard.toNat]? with
        | none => none
        | some c =>
          merge_loop fltMax results nshards k iters
            (counter.set b.fromShard.toNat (c + 1)) (answers ++ [b.bestId])

/-- The function `merge_results` (lines 19-41): returns the `k` ids written to
`answers[0..k)`, or `none` when the execution is undefined. -/
def merge_results {α : Type} [LinearOrder α] (fltMax : α) (results : List (PartialResult α))
    (nshards k : Nat) : Option (List Int) :=
  merge_loop fltMax results nshards k k (List.replicate nshards 0) []

/-- A shard's list of `(distance, id)` pairs as the `PartialResult` the merge reads. -/
def ofPairs {α : Type} (l : List (α × Int)) : PartialResult α :=
  ⟨l.map Prod.fst, l.map Prod.snd, false, 0, 0⟩

/-- The specification of the merge: ids of the first `k` elements of the stable
ascending-by-distance sort of the lists concatenated in shard-index order. -/
def stable_topk {α : Type} [LinearOrder α] (lists : List (List (α × Int))) (k : Nat) :
    List Int :=
  ((lists.flatten.insertionSort (fun a b => a.1 ≤ b.1)).take k).map Prod.snd

/-- The value of `std::numeric_limits<float>::max()`, `(2 - 2^-23) * 2^127`. -/
def FLT_MAX : ℚ := 340282346638528859811704183484516925440

/-- The fields of `Config` used by the aggregator and by recall reporting. -/
structure Config where
  k : Nat
  block_size : Nat
  num_blocks : Nat
  distinct_queries : Nat
deriving DecidableEq, Repr

/-- `cfg.num_blocks * cfg.block_size`, the number of queries of a run. -/
def Config.total (cfg : Config) : Nat := cfg.num_blocks * cfg.block_size

/-- What one iteration of the receive loop obtains from its two `MPI_Recv` calls
(lines 149-150): the sender's rank and the contents of the buffers `I` and `D`. -/
structure Msg (α : Type) where
  source : Nat
  I : List Int
  D : List α
deriving DecidableEq, Repr

/-- The buffers `I` and `D` are allocated with `k * block_size` elements (lines 146-147). -/
def Msg.wf {α : Type} (cfg : Config) (m : Msg α) : Prop :=
  m.I.length = cfg.k * cfg.block_size ∧ m.D.length = cfg.k * cfg.block_size

/-- The locals of `aggregator` that the receive loop reads and writes, the heap
(`next_handle` counts the arrays obtained from `new[]`, `freed` lists the handles given
to `delete[]`) and the trace `merged` of the `results` vector of every call of
`aggregate_query`. -/
structure AggState (α : Type) where
  queue : List (List (PartialResult α))
  remaining_queries_per_shard : List Int
  queries_remaining : Int
  qn : Nat
  answers : List Int
  next_handle : Nat
  freed : List Nat
  merged : List (List (PartialResult α))
deriving DecidableEq, Repr

/-- Body of the first loop of `aggregate_query` (lines 47-48):
`results[shard] = queue[shard].front(); queue[shard].pop();`. -/
def pop_front {α : Type} (acc : List (List (PartialResult α)) × List (PartialResult α))
    (shard : Nat) : Option (List (List (PartialResult α)) × List (PartialResult α)) :=
  match acc.1[shard]? with
  | some (r :: rest) => some (acc.1.set shard rest, acc.2 ++ [r])
  | _ => none

/-- Body of the last loop of `aggregate_query` (lines 54-57): the handles deleted for
one element of `results`. -/
def frees_of {α : Type} (r : PartialResult α) : List Nat :=
  if r.own_fields then [r.base_dists, r.base_ids] else []

/-- The function `aggregate_query` (lines 43-59): the queues after the pops, the
`results` vector, the `k` merged ids and the handles deleted. -/
def aggregate_query {α : Type} [LinearOrder α] (fltMax : α)
    (queue : List (List (PartialResult α))) (nshards k : Nat) :
    Option (List (List (PartialResult α)) × List (PartialResult α) × List Int × List Nat) :=
  match (List.range nshards).foldlM pop_front (queue, []) with
  | none => none
  | some (queue1, results) =>
    match merge_results fltMax results nshards k with
    | none => none
    | some ids => some (queue1, results, ids, (results.map frees_of).flatten)

/-- The scan of lines 160-167: is some `queue[i]`, `i < nshards`, empty. -/
def has_empty {α : Type} (queue : List (List (PartialResult α))) (nshards : Nat) : Bool :=
  (List.range nshards).any fun i => (queue.getD i []).isEmpty

/-- Writing `ids` to `answers + off` (the pointer handed to `aggregate_query`). -/
def write_at (answers : List Int) (off : Nat) (ids : List Int) : Option (List Int) :=
  if off + ids.length ≤ answers.length then
    some (answers.take off ++ ids ++ answers.drop (off + ids.length))
  else none

/-- The loop `while (true)` of lines 159-176, run for at most `fuel` tests of
`hasEmpty`; `none` is undefined behaviour or a loop that does not end within `fuel`.
`qn % (num_blocks * block_size)` with a zero divisor is undefined. -/
def drain {α : Type} [LinearOrder α] (fltMax : α) (cfg : Config) (nshards : Nat) :
    Nat → AggState α → Option (AggState α)
  | 0, _ => none
  | fuel + 1, st =>
    if has_empty st.queue nshards then some st
    else if cfg.total = 0 then none
    else
      match aggregate_query fltMax st.queue nshards cfg.k with
      | none => none
      | some (queue1, results, ids, deleted) =>
        match write_at st.answers ((st.qn % cfg.total) * cfg.k) ids with
        | none => none
        | some answers1 =>
          drain fltMax cfg nshards fuel
            { st with
              queue := queue1
              answers := answers1
              queries_remaining := st.queries_remaining - 1
              qn := st.qn + 1
              freed := st.freed ++ deleted
              merged := st.merged ++ [results] }

/-- The pushes of lines 155-157 for one received block:
`{ D + k*q, I + k*q, q == block_size - 1, D, I }` for `q = 0 .. block_size-1`. -/
def enqueue_block {α : Type} (cfg : Config) (D : List α) (I : List Int) (hD hI : Nat) :
    List (PartialResult α) :=
  (List.range cfg.block_size).map fun q =>
    ⟨D.drop (cfg.k * q), I.drop (cfg.k * q),
      decide ((q : Int) = (cfg.block_size : Int) - 1), hD, hI⟩

/-- Number of elements held by all queues. -/
def queued {α : Type} (queue : List (List (PartialResult α))) : Nat :=
  (queue.map List.length).sum

/-- One iteration of the receive loop `while (queries_remaining >= 1)` (lines 144-176)
for the received message `m`: `I` gets the handle `next_handle`, `D` the next one, and
`shard = status.MPI_SOURCE - 2` must index `queue`.  The inner loop gets fuel for one
test of `hasEmpty` more than there are queued elements: every turn pops one element of
every queue, so with at least one shard the fuel is not exhausted (`drain_total`); with
no shard the loop of the source does not end. -/
def aggregator_step {α : Type} [LinearOrder α] (fltMax : α) (cfg : Config) (nshards : Nat)
    (st : AggState α) (m : Msg α) : Option (AggState α) :=
  let hI := st.next_handle
  let hD := st.next_handle + 1
  if m.source < 2 then none
  else
    let shard := m.source - 2
    if nshards ≤ shard then none
    else
      let queue1 := st.queue.set shard
        (st.queue.getD shard [] ++ enqueue_block cfg m.D m.I hD hI)
      drain fltMax cfg nshards (queued queue1 + 1)
        { st with
          queue := queue1
          remaining_queries_per_shard := st.remaining_queries_per_shard.set shard
            (st.remaining_queries_per_shard.getD shard 0 - (cfg.block_size : Int))
          next_handle := st.next_handle + 2 }

/-- The state of `aggregator` when the receive loop is entered (lines 125-141). -/
def aggregator_init (α : Type) (cfg : Config) (nshards : Nat) : AggState α :=
  { queue := List.replicate nshards []
    remaining_queries_per_shard := List.replicate nshards (cfg.total : Int)
    queries_remaining := (cfg.total : Int)
    qn := 0
    answers := List.replicate (cfg.total * cfg.k) 0
    next_handle := 0
    freed := []
    merged := [] }

/-- Any number of iterations of the loop body, one per message. -/
def aggregator_steps {α : Type} [LinearOrder α] (fltMax : α) (cfg : Config) (nshards : Nat)
    (st : AggState α) (msgs : List (Msg α)) : Option (AggState α) :=
  msgs.foldlM (aggregator_step fltMax cfg nshards) st

/-- The receive loop of `aggregator` (lines 143-177) fed with the messages `msgs` in
arrival order: the state when the loop ends and the messages not received.  `none`
when the loop does not end: undefined behaviour, or `MPI_Recv` waiting for a message
that never comes. -/
def aggregator_loop {α : Type} [LinearOrder α] (fltMax : α) (cfg : Config) (nshards : Nat) :
    List (Msg α) → AggState α → Option (AggState α × List (Msg α))
  | [], st => if 1 ≤ st.queries_remaining then none else some (st, [])
  | m :: rest, st =>
    if 1 ≤ st.queries_remaining then
      match aggregator_step fltMax cfg nshards st m with
      | none => none
      | some st1 => aggregator_loop fltMax cfg nshards rest st1
    else some (st, m :: rest)

/-- The PartialResults that shard `s` has enqueued after the messages `msgs`, the
first message being received into the handles `h` and `h + 1`. -/
def enqueued_from {α : Type} (cfg : Config) (s : Nat) : Nat → List (Msg α) →
    List (PartialResult α)
  | _, [] => []
  | h, m :: rest =>
    (if m.source = s + 2 then enqueue_block cfg m.D m.I (h + 1) h else []) ++
      enqueued_from cfg s (h + 2) rest

/-- The PartialResults that shard `s` has enqueued after the messages `msgs` of a run. -/
def enqueued {α : Type} (cfg : Config) (s : Nat) (msgs : List (Msg α)) :
    List (PartialResult α) :=
  enqueued_from cfg s 0 msgs

/-! ## src/search.cpp : wire protocol, communication lanes, hybrid split -/

/-- The MPI element types used on the shard-to-aggregator link. -/
inductive MpiType where
  | MPI_LONG
  | MPI_FLOAT
deriving DecidableEq, Repr

/-- The tag, element type and element count of one point-to-point call. -/
structure Envelope where
  tag : Nat
  dtype : MpiType
  count : Nat
deriving DecidableEq, Repr

/-- The three `MPI_Ssend` calls a communication lane makes per completed block
(`search.cpp` lines 45-47, the same at 93-95 and 115-117). -/
def comm_send_block (cfg : Config) : List Envelope :=
  [⟨0, MpiType.MPI_LONG, 1⟩,
   ⟨1, MpiType.MPI_LONG, cfg.k * cfg.block_size⟩,
   ⟨2, MpiType.MPI_FLOAT, cfg.k * cfg.block_size⟩]

/-- The `MPI_Recv` calls one iteration of the aggregator's receive loop makes
(`aggregator.cpp` lines 149-150): first into `I`, then into `D`. -/
def aggregator_recv_block (cfg : Config) : List Envelope :=
  [⟨0, MpiType.MPI_LONG, cfg.k * cfg.block_size⟩,
   ⟨1, MpiType.MPI_FLOAT, cfg.k * cfg.block_size⟩]

/-- The send of one block that a receive with envelope `r` is matched with: MPI matches
a receive from a given source by tag, in the order of sending. -/
def matched_send (sends : List Envelope) (r : Envelope) : Option Envelope :=
  sends.find? fun s => s.tag == r.tag

/-- What `comm_handler` reads from the two result buffers in one loop iteration: the
`num_entries()` of line 37 and those of line 38. -/
structure CommObs where
  dist1 : Int
  label1 : Int
  dist2 : Int
  label2 : Int
deriving DecidableEq, Repr

/-- The locals `blocks_sent`, `blocks_received` of `comm_handler` and the traces of its
sends: `sent` the block ids given to the `MPI_Ssend` of line 45, `wire` all envelopes. -/
structure CommState where
  blocks_sent : Nat
  blocks_received : Nat
  sent : List Nat
  wire : List Envelope
deriving DecidableEq, Repr

/-- The loop `for (int i = 0; i < ready; i++)` of `comm_handler` (lines 40-52). -/
def send_ready (cfg : Config) : Nat → CommState → CommState
  | 0, st => st
  | n + 1, st =>
    send_ready cfg n
      { st with
        sent := st.sent ++ [st.blocks_sent]
        wire := st.wire ++ comm_send_block cfg
        blocks_sent := st.blocks_sent + 1 }

/-- One iteration of the loop of `comm_handler` (lines 37-63). -/
def comm_handler_iter (cfg : Config) (st : CommState) (o : CommObs) : CommState :=
  let st1 :=
    if st.blocks_sent < cfg.num_blocks ∧ 1 ≤ o.dist1 ∧ 1 ≤ o.label1 then
      send_ready cfg (min o.dist2 o.label2).toNat st
    else st
  if st1.blocks_received < cfg.num_blocks then
    { st1 with blocks_received := st1.blocks_received + 1 }
  else st1

/-- The loop of `comm_handler` (line 36) under the observations `obs`, one per
iteration. -/
def comm_handler_run (cfg : Config) : List CommObs → CommState → CommState
  | [], st => st
  | o :: os, st =>
    if st.blocks_sent < cfg.num_blocks ∨ st.blocks_received < cfg.num_blocks then
      comm_handler_run cfg os (comm_handler_iter cfg st o)
    else st

/-- The state of `comm_handler` before its loop (lines 30-31). -/
def CommState.init : CommState := ⟨0, 0, [], []⟩

/-- The two compute lanes of the hybrid shard. -/
inductive Lane where
  | gpu
  | cpu
deriving DecidableEq, Repr

/-- What `comm_handler_both` reads from the result buffers in one loop iteration:
`readyGPU` (line 84) and the `num_entries()` of the CPU distance and label buffers
(lines 103-106). -/
structure BothObs where
  readyGPU : Int
  cpu_dist : Int
  cpu_label : Int
deriving DecidableEq, Repr

/-- The locals of `comm_handler_both` (lines 71-78) and three traces: `sent` the block
ids given to `MPI_Ssend` with the lane they came from, `wire` all envelopes, and `fed`
the query buffer each received broadcast block was inserted into. -/
structure BothState where
  blocks_received : Nat
  blocks_until_cpu : Int
  blocks_sent : Nat
  cpu_ids : List Nat
  gpu_ids : List Nat
  sent : List (Lane × Nat)
  wire : List Envelope
  fed : List Lane
deriving DecidableEq, Repr

/-- The loop of lines 86-101: send `n` completed GPU blocks.  `front()` of an empty
`std::queue` is undefined. -/
def drain_gpu (cfg : Config) : Nat → BothState → Option BothState
  | 0, st => some st
  | n + 1, st =>
    match st.gpu_ids with
    | [] => none
    | block_id :: rest =>
      drain_gpu cfg n
        { st with
          gpu_ids := rest
          sent := st.sent ++ [(Lane.gpu, block_id)]
          wire := st.wire ++ comm_send_block cfg
          blocks_sent := st.blocks_sent + 1 }

/-- The loop of lines 109-123: send `n` completed CPU blocks. -/
def drain_cpu (cfg : Config) : Nat → BothState → Option BothState
  | 0, st => some st
  | n + 1, st =>
    match st.cpu_ids with
    | [] => none
    | block_id :: rest =>
      drain_cpu cfg n
        { st with
          cpu_ids := rest
          sent := st.sent ++ [(Lane.cpu, block_id)]
          wire := st.wire ++ comm_send_block cfg
          blocks_sent := st.blocks_sent + 1 }

/-- The receive part of the loop of `comm_handler_both` (lines 126-140). -/
def receive_both (cfg : Config) (blocks_gpu : Int) (st : BothState) : BothState :=
  if st.blocks_received < cfg.num_blocks then
    if 1 ≤ st.blocks_until_cpu then
      { st with
        fed := st.fed ++ [Lane.gpu]
        blocks_until_cpu := st.blocks_until_cpu - 1
        gpu_ids := st.gpu_ids ++ [st.blocks_received]
        blocks_received := st.blocks_received + 1 }
    else
      { st with
        fed := st.fed ++ [Lane.cpu]
        blocks_until_cpu := blocks_gpu
        cpu_ids := st.cpu_ids ++ [st.blocks_received]
        blocks_received := st.blocks_received + 1 }
  else st

/-- One iteration of the loop of `comm_handler_both` (lines 84-140); `none` is
undefined behaviour or a failed `assert`. -/
def comm_handler_both_iter (cfg : Config) (blocks_gpu : Int) (st : BothState)
    (o : BothObs) : Option BothState :=
  match drain_gpu cfg o.readyGPU.toNat st with
  | none => none
  | some st1 =>
    if o.cpu_dist < 0 ∨ o.cpu_label < 0 ∨ min o.cpu_dist o.cpu_label < 0 then none
    else
      match drain_cpu cfg (min o.cpu_dist o.cpu_label).toNat st1 with
      | none => none
      | some st2 => some (receive_both cfg blocks_gpu st2)

/-- The loop of `comm_handler_both` (line 83) under the observations `obs`, one per
iteration. -/
def comm_handler_both_run (cfg : Config) (blocks_gpu : Int) :
    List BothObs → BothState → Option BothState
  | [], st => some st
  | o :: os, st =>
    if st.blocks_sent < cfg.num_blocks then
      match comm_handler_both_iter cfg blocks_gpu st o with
      | none => none
      | some st1 => comm_handler_both_run cfg blocks_gpu os st1
    else some st

/-- The state of `comm_handler_both` before its loop (lines 71-78). -/
def BothState.init (blocks_gpu : Int) : BothState :=
  ⟨0, blocks_gpu, 0, [], [], [], [], []⟩

/-- The block ids a lane has sent, in order. -/
def lane_sent (lane : Lane) (st : BothState) : List Nat :=
  (st.sent.filter fun e => e.1 = lane).map Prod.snd

/-- A value brought into the range of `long` (two's complement, 64 bits). -/
def wrap64 (x : Int) : Int := (x + 2 ^ 63) % 2 ^ 64 - 2 ^ 63

/-- A value brought into the range of `int` (two's complement, 32 bits). -/
def wrap32 (x : Int) : Int := (x + 2 ^ 31) % 2 ^ 32 - 2 ^ 31

/-- Lines 206-207 of `search_both`: `(blocks_cpu, blocks_gpu)` from `num_blocks` and
`gpu_blocks_per_cpu_block`, both `long`.  `/` truncates; a zero divisor and the
quotient `LONG_MIN / -1` are undefined; `+` and `-` wrap. -/
def search_both_blocks (num_blocks gpu_blocks_per_cpu_block : Int) : Option (Int × Int) :=
  let d := wrap64 (gpu_blocks_per_cpu_block + 1)
  if d = 0 then none
  else if num_blocks = -(2 : Int) ^ 63 ∧ d = -1 then none
  else
    let blocks_cpu := Int.tdiv num_blocks d
    some (blocks_cpu, wrap64 (num_blocks - blocks_cpu))

/-- The first argument `search_both` gives `comm_handler_both` (line 212): the `long`
`gpu_blocks_per_cpu_block` converted to the parameter type `int`. -/
def search_both_comm_arg (gpu_blocks_per_cpu_block : Int) : Int :=
  wrap32 gpu_blocks_per_cpu_block

/-! ## src/aggregator.cpp : recall reporting -/

/-- The counters `n_1`, `n_10`, `n_100` of `show_recall`. -/
structure RecallCounts where
  n_1 : Nat
  n_10 : Nat
  n_100 : Nat
deriving DecidableEq, Repr

/-- Lines 102-106 of `show_recall` for the answer `a` at rank `j`. -/
def recall_answer (c : RecallCounts) (j : Nat) (a gt_nn : Int) : RecallCounts :=
  if a = gt_nn then
    ⟨if j < 1 then c.n_1 + 1 else c.n_1,
     if j < 10 then c.n_10 + 1 else c.n_10,
     if j < 100 then c.n_100 + 1 else c.n_100⟩
  else c

/-- The loop over `j` of `show_recall` (lines 101-107). -/
def recall_query (cfg : Config) (answers : List Int) (answer_id : Nat) (gt_nn : Int)
    (c : RecallCounts) : Option RecallCounts :=
  (List.range cfg.k).foldlM
    (fun c j =>
      match answers[answer_id * cfg.k + j]? with
      | none => none
      | some a => some (recall_answer c j a gt_nn))
    c

/-- The loop over `i` of `show_recall` (lines 96-108); `gt` is the table `load_gt`
returned.  `int gt_nn = gt[nq * cfg.k]` converts to `int`. -/
def recall_counts (cfg : Config) (answers gt : List Int) : Option RecallCounts :=
  (List.range cfg.total).foldlM
    (fun c i =>
      if cfg.total = 0 ∨ cfg.distinct_queries = 0 then none
      else
        match gt[(i % cfg.distinct_queries) * cfg.k]? with
        | none => none
        | some g => recall_query cfg answers (i % cfg.total) (wrap32 g) c)
    ⟨0, 0, 0⟩

/-- The quotient `n / float(cfg.num_blocks * cfg.block_size)` of lines 110-117: its
exact rational value, or `none` when the divisor is zero and the quotient is not a
number (`0 / float(0)` is NaN, which is what is printed when there are no queries).
Rounding to `float` and the `%.4f` format are not modelled. -/
def recall_value (cfg : Config) (n : Nat) : Option ℚ :=
  if cfg.total = 0 then none else some ((n : ℚ) / (cfg.total : ℚ))

/-- The values `show_recall` prints (lines 110-118): R@1, then R@10 when `k >= 10`,
then R@100 when `k >= 100`. -/
def show_recall (cfg : Config) (answers gt : List Int) : Option (List (Option ℚ)) :=
  match recall_counts cfg answers gt with
  | none => none
  | some c =>
    some ([recall_value cfg c.n_1]
      ++ (if 10 ≤ cfg.k then [recall_value cfg c.n_10] else [])
      ++ (if 100 ≤ cfg.k then [recall_value cfg c.n_100] else []))

/-- The first `n` merged ids of query `i` in the answer array. -/
def top_ids (cfg : Config) (answers : List Int) (i n : Nat) : List Int :=
  ((answers.drop (i * cfg.k)).take cfg.k).take n

/-- The ground-truth nearest neighbour of query `i`: `gt[(i mod distinct_queries) * k]`. -/
def gt_nn (cfg : Config) (gt : List Int) (i : Nat) : Int :=
  gt.getD ((i % cfg.distinct_queries) * cfg.k) 0

/-- The count the specification gives for R@n: the number of queries `i < total` whose
ground-truth nearest neighbour is among the first `n` merged ids of query `i`. -/
def hits (cfg : Config) (answers gt : List Int) (n : Nat) : Nat :=
  ((List.range cfg.total).filter fun i =>
    decide (gt_nn cfg gt i ∈ top_ids cfg answers i n)).length

/-! ## src/sharded.cpp : start-up arguments -/

/-- The enum `ProcType`. -/
inductive ProcType where
  | Bench
  | Dynamic
  | Static
deriving DecidableEq, Repr

/-- The enum `RequestDistribution`. -/
inductive RequestDistribution where
  | Constant
  | Variable_Poisson
  | Batch
deriving DecidableEq, Repr

/-- The policy objects `handle_parameters` constructs, by class and constructor
argument. -/
inductive ExecPolicy where
  | MinExecPolicy (shard : Int)
  | MaxExecPolicy (shard : Int)
  | QueueExecPolicy (shard : Int)
  | MinGreedyExecPolicy (shard : Int)
  | GreedyExecPolicy
  | QueueMaxExecPolicy (shard : Int)
  | CPUGreedyPolicy
  | HybridBatch
  | StaticExecPolicy (processing_size : Int)
  | BenchExecPolicy (shard : Int)
deriving DecidableEq, Repr

/-- The fields of the global `cfg` that `handle_parameters` reads or writes. -/
structure StartConfig where
  test_length : Int
  eval_length : Int
  block_size : Int
  processing_size : Int
  query_load : ℚ
  request_distribution : RequestDistribution
  exec_policy : Option ExecPolicy
deriving DecidableEq, Repr

/-- How a call ends: it returns, the process ends through `std::exit(code)`, an
`assert` fails (the process aborts), or the behaviour is undefined. -/
inductive Outcome (β : Type) where
  | ret (v : β)
  | exit (code : Int)
  | abort
  | undefined
deriving DecidableEq, Repr

/-- The exit status the parent observes after `std::exit(code)`: the low 8 bits. -/
def exit_status (code : Int) : Int := code % 256

/-- The function `process_query_distribution` (lines 12-30); `argv` is the vector from
the distribution letter on, `atof` the C library function. -/
def process_query_distribution (atof : String → ℚ) (cfg : StartConfig)
    (argv : List String) : Outcome StartConfig :=
  if cfg.block_size = 0 then Outcome.undefined
  else if Int.tmod cfg.test_length cfg.block_size ≠ 0 then Outcome.abort
  else
    match argv[0]?, argv[1]? with
    | some a0, some a1 =>
      let cfg1 := { cfg with query_load := atof a1 }
      if ¬ (cfg1.query_load ≤ (1 : ℚ)) then Outcome.abort
      else if a0 = "c" then
        Outcome.ret { cfg1 with request_distribution := RequestDistribution.Constant }
      else if a0 = "p" then
        Outcome.ret { cfg1 with request_distribution := RequestDistribution.Variable_Poisson }
      else if a0 = "b" then
        if cfg1.query_load = (0 : ℚ) then
          Outcome.ret { cfg1 with request_distribution := RequestDistribution.Batch }
        else Outcome.abort
      else Outcome.exit (-1)
    | _, _ => Outcome.undefined

/-- The chain of `strcmp` tests on `argv[4]` (lines 58-74): the policy assigned to
`cfg.exec_policy`, `none` when no test succeeds and nothing is assigned. -/
def policy_of_name (name : String) (shard : Int) : Option ExecPolicy :=
  if name = "min" then some (ExecPolicy.MinExecPolicy shard)
  else if name = "max" then some (ExecPolicy.MaxExecPolicy shard)
  else if name = "q" then some (ExecPolicy.QueueExecPolicy shard)
  else if name = "gmin" then some (ExecPolicy.MinGreedyExecPolicy shard)
  else if name = "g" then some ExecPolicy.GreedyExecPolicy
  else if name = "qmax" then some (ExecPolicy.QueueMaxExecPolicy shard)
  else if name = "c" then some ExecPolicy.CPUGreedyPolicy
  else if name = "h" then some ExecPolicy.HybridBatch
  else none

/-- The function `handle_parameters` (lines 32-101) with `argc = argv.length`;
`atof`, `atoi` are the C library functions and `bench_length` is
`BENCH_SIZE * BENCH_REPEATS`.  Returns the `ProcType` and the resulting `cfg`. -/
def handle_parameters (atof : String → ℚ) (atoi : String → Int) (bench_length : Int)
    (cfg : StartConfig) (argv : List String) (shard : Int) :
    Outcome (ProcType × StartConfig) :=
  if argv.length < 2 then Outcome.exit (-1)
  else
    match argv[1]? with
    | none => Outcome.undefined
    | some mode =>
      if mode = "d" then
        if argv.length ≠ 6 then Outcome.exit (-1)
        else
          match process_query_distribution atof cfg (argv.drop 2) with
          | Outcome.ret cfg1 =>
            match argv[4]? with
            | none => Outcome.undefined
            | some name =>
              if 0 ≤ shard then
                match policy_of_name name shard with
                | some p => Outcome.ret (ProcType.Dynamic, { cfg1 with exec_policy := some p })
                | none => Outcome.ret (ProcType.Dynamic, cfg1)
              else Outcome.ret (ProcType.Dynamic, cfg1)
          | Outcome.exit c => Outcome.exit c
          | Outcome.abort => Outcome.abort
          | Outcome.undefined => Outcome.undefined
      else if mode = "b" then
        Outcome.ret (ProcType.Bench,
          { cfg with
            exec_policy := some (ExecPolicy.BenchExecPolicy shard)
            test_length := bench_length
            eval_length := bench_length })
      else if mode = "s" then
        if argv.length ≠ 6 then Outcome.exit (-1)
        else
          match process_query_distribution atof cfg (argv.drop 2) with
          | Outcome.ret cfg1 =>
            match argv[4]? with
            | none => Outcome.undefined
            | some a4 =>
              let nq := atoi a4
              if ¬ nq ≤ cfg1.eval_length then Outcome.abort
              else if Int.tmod nq cfg1.block_size ≠ 0 then Outcome.abort
              else
                let cfg2 := { cfg1 with processing_size := Int.tdiv nq cfg1.block_size }
                Outcome.ret (ProcType.Static,
                  { cfg2 with
                    exec_policy := some (ExecPolicy.StaticExecPolicy cfg2.processing_size) })
          | Outcome.exit c => Outcome.exit c
          | Outcome.abort => Outcome.abort
          | Outcome.undefined => Outcome.undefined
      else Outcome.exit (-1)

/-- The argument vectors `handle_parameters` is meant to accept (its usage string and
its tests): `b`; or `d`/`s` with six arguments and a distribution letter `c`, `p` or
`b`, and for `d` on a shard process one of the policy names the code constructs. -/
def well_formed_args (argv : List String) (shard : Int) : Prop :=
  match argv with
  | _ :: mode :: rest =>
    mode = "b" ∨
    ((mode = "d" ∨ mode = "s") ∧ argv.length = 6 ∧
      (rest.head? = some "c" ∨ rest.head? = some "p" ∨ rest.head? = some "b") ∧
      (mode = "d" → 0 ≤ shard →
        ∃ name, argv[4]? = some name ∧
          name ∈ ["min", "max", "q", "gmin", "g", "qmax", "c", "h"]))
  | _ => False

/-! ## Auxiliary definitions of the proofs -/

/-- The buffer the `i`-th received broadcast block goes to when the lane feeds `r` GPU
blocks for every CPU block. -/
def feed_lane (r i : Nat) : Lane :=
  if (i + 1) % (r + 1) = 0 then Lane.cpu else Lane.gpu

/-- The invariant of the receive part of `comm_handler_both` started with ratio `r`. -/
def FeedInv (r : Nat) (st : BothState) : Prop :=
  st.fed = (List.range st.blocks_received).map (feed_lane r) ∧
  st.blocks_until_cpu = (r : Int) - ((st.blocks_received % (r + 1) : Nat) : Int)

/-- The invariant of `comm_handler_both` on block ids: per lane, the ids sent followed
by the ids pending are strictly increasing and below `blocks_received`. -/
def LaneInv (st : BothState) : Prop :=
  (lane_sent Lane.gpu st ++ st.gpu_ids).Pairwise (· < ·) ∧
  (lane_sent Lane.cpu st ++ st.cpu_ids).Pairwise (· < ·) ∧
  (∀ x ∈ lane_sent Lane.gpu st ++ st.gpu_ids, x < st.blocks_received) ∧
  (∀ x ∈ lane_sent Lane.cpu st ++ st.cpu_ids, x < st.blocks_received)

/-- The ground-truth nearest neighbour of every query occurs at most once among the
first `n` merged ids of that query. -/
def once_in_top (cfg : Config) (answers gt : List Int) (n : Nat) : Prop :=
  ∀ i, i < cfg.total → (top_ids cfg answers i n).count (gt_nn cfg gt i) ≤ 1

/-- The number of pairs `(i, j)`, `i < m`, `j < min n k`, with `answers[i*k + j]` equal
to the ground-truth nearest neighbour of query `i`. -/
def matches_upto (cfg : Config) (answers gt : List Int) (n m : Nat) : Nat :=
  ((List.range m).map fun i => (top_ids cfg answers i n).count (gt_nn cfg gt i)).sum

/-- The distance `results[s].dists[counter[s]]` the scan reads for shard `s`. -/
def cur_dist {α : Type} (fltMax : α) (results : List (PartialResult α))
    (counter : List Nat) (s : Nat) : α :=
  ((results.getD s ⟨[], [], false, 0, 0⟩).dists).getD (counter.getD s 0) fltMax

/-- The id `results[s].ids[counter[s]]` the scan reads for shard `s`. -/
def cur_id {α : Type} (results : List (PartialResult α)) (counter : List Nat) (s : Nat) :
    Int :=
  ((results.getD s ⟨[], [], false, 0, 0⟩).ids).getD (counter.getD s 0) (-1)

/-- The effect of `scan_shard` when all its reads are in bounds and the cursor of the
shard is not `k`. -/
def scan_pure {α : Type} [LinearOrder α] (fltMax : α) (results : List (PartialResult α))
    (counter : List Nat) (b : Best α) (s : Nat) : Best α :=
  if cur_dist fltMax results counter s < b.bestDist then
    ⟨cur_dist fltMax results counter s, cur_id results counter s, (s : Int)⟩
  else b

/-- Every shard below `n` has a cursor below `k` that is inside its two views. -/
def InBounds {α : Type} (results : List (PartialResult α)) (counter : List Nat)
    (k n : Nat) : Prop :=
  ∀ s, s < n → ∃ c r, counter[s]? = some c ∧ c < k ∧ results[s]? = some r ∧
    c < r.dists.length ∧ c < r.ids.length

/-- The input of a merge is usable: one `PartialResult` per shard, each with at least
`k` distances and ids, the first `k` distances below the initial `bestDist`. -/
def MergeInput {α : Type} [LinearOrder α] (fltMax : α) (results : List (PartialResult α))
    (nshards k : Nat) : Prop :=
  results.length = nshards ∧
  ∀ r ∈ results, k ≤ r.dists.length ∧ k ≤ r.ids.length ∧
    ∀ j, j < k → ∀ d, r.dists[j]? = some d → d < fltMax

/-- A filler for reads that the invariants show to be in range. -/
def nilPR {α : Type} : PartialResult α := ⟨[], [], false, 0, 0⟩

/-- The queues when `qn` queries have been merged after the messages `msgs`: for every
shard what it has enqueued, less its first `qn` elements. -/
def queue_of {α : Type} (cfg : Config) (nshards : Nat) (msgs : List (Msg α)) (qn : Nat) :
    List (List (PartialResult α)) :=
  (List.range nshards).map fun s => (enqueued cfg s msgs).drop qn

/-- The `q`-th PartialResult enqueued by each shard, in shard order. -/
def row_of {α : Type} (cfg : Config) (nshards : Nat) (msgs : List (Msg α)) (q : Nat) :
    List (PartialResult α) :=
  (List.range nshards).map fun s => (enqueued cfg s msgs).getD q nilPR

/-- The handles that are deleted when the PartialResults of `l` are merged. -/
def owned {α : Type} (l : List (PartialResult α)) : List Nat :=
  (l.map frees_of).flatten

/-- The invariant of the receive loop after the messages `msgs`. -/
def AggInv {α : Type} (cfg : Config) (nshards : Nat) (msgs : List (Msg α))
    (st : AggState α) : Prop :=
  st.queue = queue_of cfg nshards msgs st.qn ∧
  (∀ s, s < nshards → st.qn ≤ (enqueued cfg s msgs).length) ∧
  st.merged = (List.range st.qn).map (row_of cfg nshards msgs) ∧
  st.next_handle = 2 * msgs.length ∧
  st.freed = owned st.merged.flatten ∧
  st.queries_remaining = (cfg.total : Int) - (st.qn : Int) ∧
  st.answers.length = cfg.total * cfg.k

/-- Every array allocated so far is either deleted or owned by exactly one queued
PartialResult. -/
def OwnInv {α : Type} (st : AggState α) : Prop :=
  (st.freed ++ owned st.queue.flatten).Perm (List.range st.next_handle)

/-- A received message the merge can work on: buffers of `k * block_size` elements
from a shard below `nshards`, all distances below the initial `bestDist`. -/
def MsgOk {α : Type} [LinearOrder α] (fltMax : α) (cfg : Config) (nshards : Nat)
    (m : Msg α) : Prop :=
  Msg.wf cfg m ∧ 2 ≤ m.source ∧ m.source < nshards + 2 ∧ ∀ d ∈ m.D, d < fltMax

/-- A PartialResult the merge can work on. -/
def PROk {α : Type} [LinearOrder α] (fltMax : α) (k : Nat) (r : PartialResult α) : Prop :=
  k ≤ r.dists.length ∧ k ≤ r.ids.length ∧ ∀ d ∈ r.dists, d < fltMax

/-- The part of every shard's list that the merge has not consumed. -/
def rem_lists {α : Type} (lists : List (List (α × Int))) (nshards : Nat)
    (counter : List Nat) : List (List (α × Int)) :=
  (List.range nshards).map fun s => (lists.getD s []).drop (counter.getD s 0)

/-- The pair at the cursor of shard `s`. -/
def cur_pair {α : Type} (fltMax : α) (lists : List (List (α × Int))) (counter : List Nat)
    (s : Nat) : α × Int :=
  (lists.getD s []).getD (counter.getD s 0) (fltMax, -1)

/-! ## src/aggregator.cpp : the iterations of `merge_results` -/

/-- One `topi` iteration of `merge_results` as it is executed: `topi`, the array
`counter` at the top of the iteration (the cursors the inner loop reads with) and the
locals `bestDist`, `bestId`, `fromShard` after the inner loop, with which
`answers[topi] = bestId` and `counter[fromShard]++` are executed. -/
structure MergeStep (α : Type) where
  topi : Nat
  counter : List Nat
  best : Best α
deriving DecidableEq, Repr

/-- The outer loop of `merge_results` (lines 23-40) as in `merge_loop`, returning the
iterations executed instead of the ids written; `iters` iterations are still to run,
the next one is number `topi`. -/
def merge_steps {α : Type} [LinearOrder α] (fltMax : α) (results : List (PartialResult α))
    (nshards k : Nat) : Nat → Nat → List Nat → Option (List (MergeStep α))
  | 0, _, _ => some []
  | iters + 1, topi, counter =>
    match scan_all fltMax results counter nshards k with
    | none => none
    | some b =>
      if b.fromShard < 0 then none
      else
        match counter[b.fromShard.toNat]? with
        | none => none
        | some c =>
          match merge_steps fltMax results nshards k iters (topi + 1)
              (counter.set b.fromShard.toNat (c + 1)) with
          | none => none
          | some rest => some (⟨topi, counter, b⟩ :: rest)

/-- The iterations of a call of `merge_results` (lines 19-41). -/
def merge_results_steps {α : Type} [LinearOrder α] (fltMax : α)
    (results : List (PartialResult α)) (nshards k : Nat) : Option (List (MergeStep α)) :=
  merge_steps fltMax results nshards k k 0 (List.replicate nshards 0)

/-- An iteration of `merge_results` is safe: it is one of the `k` iterations, the
cursors sum to `topi` and all are below `k`, and a shard `s` in `[0, nshards)` has been
selected, `bestDist` and `bestId` being the distance and the id at its cursor. -/
def StepSafe {α : Type} [LinearOrder α] (fltMax : α) (results : List (PartialResult α))
    (nshards k : Nat) (st : MergeStep α) : Prop :=
  st.topi < k ∧ st.counter.length = nshards ∧ st.counter.sum = st.topi ∧
  (∀ c ∈ st.counter, c < k) ∧
  ∃ s r c, s < nshards ∧ st.best.fromShard = (s : Int) ∧ results[s]? = some r ∧
    st.counter[s]? = some c ∧ r.dists[c]? = some st.best.bestDist ∧
    r.ids[c]? = some st.best.bestId ∧ st.best.bestDist < fltMax

/-! ## Auxiliary facts on machine integers -/

theorem wrap64_of_range (x : Int) (h0 : -(2 : Int) ^ 63 ≤ x) (h1 : x < 2 ^ 63) :
    wrap64 x = x := by
  unfold wrap64
  norm_num at h0 h1 ⊢
  omega

theorem wrap32_of_range (x : Int) (h0 : -(2 : Int) ^ 31 ≤ x) (h1 : x < 2 ^ 31) :
    wrap32 x = x := by
  unfold wrap32
  norm_num at h0 h1 ⊢
  omega

theorem search_both_blocks_eq (N r : Int) (hN : 0 ≤ N) (hN2 : N < 2 ^ 63) (hr : 0 ≤ r)
    (hr2 : r < 2 ^ 63) :
    search_both_blocks N r = some (N / (r + 1), N - N / (r + 1)) := by
  have hq0 : 0 ≤ N / (r + 1) := Int.ediv_nonneg hN (by omega)
  have hq1 : N / (r + 1) ≤ N := Int.ediv_le_self _ hN
  have hg : wrap64 (N - N / (r + 1)) = N - N / (r + 1) :=
    wrap64_of_range _ (by norm_num at hN2 ⊢; omega) (by omega)
  by_cases hmax : r + 1 < 2 ^ 63
  · have hd : wrap64 (r + 1) = r + 1 :=
      wrap64_of_range _ (by norm_num at hmax ⊢; omega) hmax
    have ht : Int.tdiv N (r + 1) = N / (r + 1) := Int.tdiv_eq_ediv hN (by omega)
    unfold search_both_blocks
    simp only [hd, ht, hg]
    rw [if_neg (by omega), if_neg (by omega)]
  · have hr3 : r + 1 = 2 ^ 63 := by omega
    have hd : wrap64 (r + 1) = -(2 : Int) ^ 63 := by
      rw [hr3]; unfold wrap64; norm_num
    have hz : N / (r + 1) = 0 := by
      rw [hr3]; exact Int.ediv_eq_zero_of_lt hN hN2
    have ht : Int.tdiv N (-(2 : Int) ^ 63) = 0 := by
      rw [Int.tdiv_neg, Int.tdiv_eq_zero_of_lt hN hN2]; rfl
    have hw : wrap64 (N - 0) = N - 0 := by rw [hz] at hg; exact hg
    unfold search_both_blocks
    simp only [hd, ht, hz, hw]
    rw [if_neg (by norm_num), if_neg (by norm_num)]

/-! ## C7 : hybrid split -/

/-- C7: in `search_both`, for every block count `N >= 0` and ratio `r >= 0` (values of
type `long`), `blocks_cpu` is the integer quotient `N / (r + 1)` and `blocks_gpu` is
`N - blocks_cpu`; they add up to `N`, neither is negative, and `N = 100`, `r = 3` give
`25` and `75`. -/
theorem search_both_split (N r : Int) (hN : 0 ≤ N) (hN2 : N < 2 ^ 63) (hr : 0 ≤ r)
    (hr2 : r < 2 ^ 63) :
    search_both_blocks N r = some (N / (r + 1), N - N / (r + 1)) ∧
    N / (r + 1) + (N - N / (r + 1)) = N ∧
    0 ≤ N / (r + 1) ∧ 0 ≤ N - N / (r + 1) ∧
    search_both_blocks 100 3 = some (25, 75) := by
  refine ⟨search_both_blocks_eq N r hN hN2 hr hr2, by omega,
    Int.ediv_nonneg hN (by omega), ?_, by decide⟩
  have := Int.ediv_le_self (r + 1) hN
  omega

theorem search_both_split_witness :
    search_both_blocks 7 2 = some (7 / (2 + 1), 7 - 7 / (2 + 1)) ∧
    (7 : Int) / (2 + 1) + (7 - 7 / (2 + 1)) = 7 ∧
    (0 : Int) ≤ 7 / (2 + 1) ∧ (0 : Int) ≤ 7 - 7 / (2 + 1) ∧
    search_both_blocks 100 3 = some (25, 75) :=
  search_both_split 7 2 (by decide) (by decide) (by decide) (by decide)

/-! ## C5 : wire protocol -/

/-- C5 (the code differs): for every configuration the `MPI_Recv` calls of one
iteration of the aggregator's receive loop are not the sequence of sends a
communication lane makes per block.  The receive into `I` is matched with the send of
the single block id, the receive into `D` (of `MPI_FLOAT`) with the send of the ids (of
`MPI_LONG`), and no receive carries the tag 2 under which the distances are sent. -/
theorem wire_protocol_mismatch (cfg : Config) :
    aggregator_recv_block cfg ≠ comm_send_block cfg ∧
    (aggregator_recv_block cfg).map (matched_send (comm_send_block cfg)) =
      [some ⟨0, MpiType.MPI_LONG, 1⟩,
       some ⟨1, MpiType.MPI_LONG, cfg.k * cfg.block_size⟩] ∧
    (∀ r ∈ aggregator_recv_block cfg, r.tag ≠ 2) ∧
    (∀ r ∈ aggregator_recv_block cfg,
      r.dtype = MpiType.MPI_FLOAT →
        ∃ s, matched_send (comm_send_block cfg) r = some s ∧ s.dtype = MpiType.MPI_LONG) := by
  refine ⟨?_, ?_, ?_, ?_⟩
  · intro h
    have := congrArg List.length h
    simp [aggregator_recv_block, comm_send_block] at this
  · simp [aggregator_recv_block, comm_send_block, matched_send, List.find?]
  · intro r hr
    simp only [aggregator_recv_block, List.mem_cons, List.mem_singleton,
      List.not_mem_nil, or_false] at hr
    rcases hr with rfl | rfl <;> simp
  · intro r hr hf
    simp only [aggregator_recv_block, List.mem_cons, List.mem_singleton,
      List.not_mem_nil, or_false] at hr
    rcases hr with rfl | rfl
    · simp at hf
    · exact ⟨⟨1, MpiType.MPI_LONG, cfg.k * cfg.block_size⟩,
        by simp [comm_send_block, matched_send, List.find?], rfl⟩

/-! ## C9 : start-up arguments -/

theorem policy_of_name_none (name : String) (shard : Int)
    (h : name ∉ ["min", "max", "q", "gmin", "g", "qmax", "c", "h"]) :
    policy_of_name name shard = none := by
  simp only [List.mem_cons, List.mem_singleton, List.not_mem_nil, or_false, not_or] at h
  obtain ⟨h1, h2, h3, h4, h5, h6, h7, h8⟩ := h
  simp [policy_of_name, h1, h2, h3, h4, h5, h6, h7, h8]

/-- C9 (the code differs): in dynamic mode on a shard process (`shard >= 0`), with six
arguments, a distribution letter `c` or `p` and the assertions of
`process_query_distribution` holding, a policy name that is none of the names the
code tests is not rejected: `handle_parameters` returns `ProcType::Dynamic` without
exiting and leaves `cfg.exec_policy` as it was, although the argument vector is not
well formed. -/
theorem unknown_policy_not_rejected (atof : String → ℚ) (atoi : String → Int)
    (bench_length : Int) (cfg : StartConfig) (prog dist load name seed : String)
    (shard : Int)
    (hbs : cfg.block_size ≠ 0) (hlen : Int.tmod cfg.test_length cfg.block_size = 0)
    (hload : atof load ≤ 1) (hdist : dist = "c" ∨ dist = "p") (hshard : 0 ≤ shard)
    (hname : name ∉ ["min", "max", "q", "gmin", "g", "qmax", "c", "h"]) :
    (∃ cfg1, handle_parameters atof atoi bench_length cfg
        [prog, "d", dist, load, name, seed] shard = Outcome.ret (ProcType.Dynamic, cfg1) ∧
      cfg1.exec_policy = cfg.exec_policy) ∧
    ¬ well_formed_args [prog, "d", dist, load, name, seed] shard := by
  have hp := policy_of_name_none name shard hname
  constructor
  · rcases hdist with rfl | rfl
    · refine ⟨{ cfg with query_load := atof load,
                         request_distribution := RequestDistribution.Constant }, ?_, rfl⟩
      simp [handle_parameters, process_query_distribution, hbs, hlen, hload, hshard, hp]
    · refine ⟨{ cfg with query_load := atof load,
                         request_distribution := RequestDistribution.Variable_Poisson }, ?_, rfl⟩
      simp [handle_parameters, process_query_distribution, hbs, hlen, hload, hshard, hp]
  · intro hw
    simp only [well_formed_args] at hw
    rcases hw with h | ⟨_, _, _, h⟩
    · exact absurd h (by decide)
    · obtain ⟨n, hn, hmem⟩ := h trivial hshard
      simp at hn
      subst hn
      exact hname hmem

theorem unknown_policy_not_rejected_witness :
    (∃ cfg1, handle_parameters (fun _ => 1 / 2) (fun _ => 1) 100
        ⟨10, 10, 5, 0, 0, RequestDistribution.Constant, none⟩
        ["./sharded", "d", "c", "0.5", "bogus", "1"] 0
          = Outcome.ret (ProcType.Dynamic, cfg1) ∧
      cfg1.exec_policy = none) ∧
    ¬ well_formed_args ["./sharded", "d", "c", "0.5", "bogus", "1"] 0 :=
  unknown_policy_not_rejected (fun _ => 1 / 2) (fun _ => 1) 100
    ⟨10, 10, 5, 0, 0, RequestDistribution.Constant, none⟩
    "./sharded" "c" "0.5" "bogus" "1" 0 (by decide) (by decide) (by norm_num)
    (Or.inl rfl) (by decide) (by decide)

/-- The other malformed argument vectors are rejected: no mode argument, an unknown mode
and a dynamic or static mode without six arguments end in `std::exit(-1)`; with six
arguments and a distribution letter other than `c`, `p`, `b` the call does not return
(it exits, or an `assert` of `process_query_distribution` fails first). -/
theorem handle_parameters_rejects (atof : String → ℚ) (atoi : String → Int)
    (bench_length : Int) (cfg : StartConfig) (shard : Int) :
    (∀ argv : List String, argv.length < 2 →
      handle_parameters atof atoi bench_length cfg argv shard = Outcome.exit (-1)) ∧
    (∀ (prog mode : String) (rest : List String), mode ≠ "d" → mode ≠ "b" → mode ≠ "s" →
      handle_parameters atof atoi bench_length cfg (prog :: mode :: rest) shard
        = Outcome.exit (-1)) ∧
    (∀ (prog mode : String) (rest : List String), mode = "d" ∨ mode = "s" →
      rest.length ≠ 4 →
      handle_parameters atof atoi bench_length cfg (prog :: mode :: rest) shard
        = Outcome.exit (-1)) ∧
    (∀ (prog mode dist load a4 seed : String), mode = "d" ∨ mode = "s" →
      dist ≠ "c" → dist ≠ "p" → dist ≠ "b" → cfg.block_size ≠ 0 →
      ∀ v, handle_parameters atof atoi bench_length cfg
        [prog, mode, dist, load, a4, seed] shard ≠ Outcome.ret v) := by
  refine ⟨?_, ?_, ?_, ?_⟩
  · intro argv h
    simp [handle_parameters, h]
  · intro prog mode rest h1 h2 h3
    simp [handle_parameters, h1, h2, h3]
  · intro prog mode rest hm hlen
    have hl : ¬ (rest.length + 1 + 1 = 6) := by omega
    rcases hm with rfl | rfl <;> simp [handle_parameters, hl]
  · intro prog mode dist load a4 seed hm h1 h2 h3 hbs v
    have hp : ∀ c, process_query_distribution atof cfg [dist, load, a4, seed]
        ≠ Outcome.ret c := by
      intro c
      unfold process_query_distribution
      rw [if_neg hbs]
      split
      · simp
      · simp only [List.getElem?_cons_zero, List.getElem?_cons_succ]
        split
        · simp
        · simp [h1, h2, h3]
    rcases hm with rfl | rfl
    · unfold handle_parameters
      simp only [List.length_cons, List.length_nil, List.getElem?_cons_succ,
        List.getElem?_cons_zero, List.drop_succ_cons, List.drop_zero]
      cases hq : process_query_distribution atof cfg [dist, load, a4, seed] with
      | ret c => exact absurd hq (hp c)
      | exit c => simp
      | abort => simp
      | undefined => simp
    · unfold handle_parameters
      simp only [List.length_cons, List.length_nil, List.getElem?_cons_succ,
        List.getElem?_cons_zero, List.drop_succ_cons, List.drop_zero]
      cases hq : process_query_distribution atof cfg [dist, load, a4, seed] with
      | ret c => exact absurd hq (hp c)
      | exit c => simp
      | abort => simp
      | undefined => simp

/-! ## The communication lanes -/

theorem drain_gpu_keeps (cfg : Config) (n : Nat) (st st1 : BothState)
    (h : drain_gpu cfg n st = some st1) :
    st1.fed = st.fed ∧ st1.blocks_received = st.blocks_received ∧
    st1.blocks_until_cpu = st.blocks_until_cpu ∧ st1.cpu_ids = st.cpu_ids ∧
    lane_sent Lane.cpu st1 = lane_sent Lane.cpu st ∧
    lane_sent Lane.gpu st1 ++ st1.gpu_ids = lane_sent Lane.gpu st ++ st.gpu_ids := by
  induction n generalizing st with
  | zero =>
    simp only [drain_gpu, Option.some.injEq] at h
    subst h
    simp
  | succ n ih =>
    cases hq : st.gpu_ids with
    | nil => simp [drain_gpu, hq] at h
    | cons b rest =>
      simp only [drain_gpu, hq] at h
      have := ih _ h
      simp only [lane_sent, List.filter_append, List.map_append] at this ⊢
      obtain ⟨h1, h2, h3, h4, h5, h6⟩ := this
      refine ⟨h1, h2, h3, h4, ?_, ?_⟩
      · rw [h5]; simp [List.filter]
      · rw [h6]; simp [List.filter]

theorem drain_cpu_keeps (cfg : Config) (n : Nat) (st st1 : BothState)
    (h : drain_cpu cfg n st = some st1) :
    st1.fed = st.fed ∧ st1.blocks_received = st.blocks_received ∧
    st1.blocks_until_cpu = st.blocks_until_cpu ∧ st1.gpu_ids = st.gpu_ids ∧
    lane_sent Lane.gpu st1 = lane_sent Lane.gpu st ∧
    lane_sent Lane.cpu st1 ++ st1.cpu_ids = lane_sent Lane.cpu st ++ st.cpu_ids := by
  induction n generalizing st with
  | zero =>
    simp only [drain_cpu, Option.some.injEq] at h
    subst h
    simp
  | succ n ih =>
    cases hq : st.cpu_ids with
    | nil => simp [drain_cpu, hq] at h
    | cons b rest =>
      simp only [drain_cpu, hq] at h
      have := ih _ h
      simp only [lane_sent, List.filter_append, List.map_append] at this ⊢
      obtain ⟨h1, h2, h3, h4, h5, h6⟩ := this
      refine ⟨h1, h2, h3, h4, ?_, ?_⟩
      · rw [h5]; simp [List.filter]
      · rw [h6]; simp [List.filter]

theorem succ_mod_of_lt (a b : Nat) (h : a % (b + 1) < b) :
    (a + 1) % (b + 1) = a % (b + 1) + 1 := by
  rw [Nat.add_mod, Nat.mod_eq_of_lt (a := a % (b + 1) + 1 % (b + 1))]
  · rcases Nat.eq_zero_or_pos b with hb | hb
    · omega
    · rw [Nat.mod_eq_of_lt (by omega : 1 < b + 1)]
  · rcases Nat.eq_zero_or_pos b with hb | hb
    · omega
    · rw [Nat.mod_eq_of_lt (by omega : 1 < b + 1)]; omega

theorem succ_mod_of_eq (a b : Nat) (h : a % (b + 1) = b) :
    (a + 1) % (b + 1) = 0 := by
  have h1 := Nat.div_add_mod a (b + 1)
  have h2 : a + 1 = (b + 1) * (a / (b + 1) + 1) := by
    rw [Nat.mul_add, Nat.mul_one]; omega
  rw [h2]
  exact Nat.mul_mod_right _ _

theorem receive_both_feed (cfg : Config) (r : Nat) (st : BothState) (h : FeedInv r st) :
    FeedInv r (receive_both cfg (r : Int) st) := by
  obtain ⟨hf, hu⟩ := h
  have hlt : st.blocks_received % (r + 1) < r + 1 := Nat.mod_lt _ (by omega)
  unfold receive_both
  by_cases hrecv : st.blocks_received < cfg.num_blocks
  · rw [if_pos hrecv]
    by_cases hcpu : 1 ≤ st.blocks_until_cpu
    · rw [if_pos hcpu]
      have hm : st.blocks_received % (r + 1) < r := by omega
      have hs := succ_mod_of_lt _ _ hm
      refine ⟨?_, ?_⟩
      · simp only [List.range_succ, List.map_append, List.map_cons, List.map_nil, hf]
        congr 2
        simp [feed_lane, hs]
      · simp only [hs, hu]; push_cast; ring
    · rw [if_neg hcpu]
      have hm : st.blocks_received % (r + 1) = r := by omega
      have hs := succ_mod_of_eq _ _ hm
      refine ⟨?_, ?_⟩
      · simp only [List.range_succ, List.map_append, List.map_cons, List.map_nil, hf]
        congr 2
        simp [feed_lane, hs]
      · simp [hs]
  · rw [if_neg hrecv]; exact ⟨hf, hu⟩

theorem iter_feed (cfg : Config) (r : Nat) (st st1 : BothState) (o : BothObs)
    (h : FeedInv r st) (hi : comm_handler_both_iter cfg (r : Int) st o = some st1) :
    FeedInv r st1 := by
  unfold comm_handler_both_iter at hi
  cases hg : drain_gpu cfg o.readyGPU.toNat st with
  | none => simp [hg] at hi
  | some sa =>
    simp only [hg] at hi
    split at hi
    · simp at hi
    · cases hc : drain_cpu cfg (min o.cpu_dist o.cpu_label).toNat sa with
      | none => simp [hc] at hi
      | some sb =>
        simp only [hc, Option.some.injEq] at hi
        subst hi
        apply receive_both_feed
        obtain ⟨g1, g2, g3, -⟩ := drain_gpu_keeps cfg _ _ _ hg
        obtain ⟨c1, c2, c3, -⟩ := drain_cpu_keeps cfg _ _ _ hc
        unfold FeedInv at h ⊢
        rw [c1, c2, c3, g1, g2, g3]
        exact h

theorem run_feed (cfg : Config) (r : Nat) (obs : List BothObs) (st st1 : BothState)
    (h : FeedInv r st) (hrun : comm_handler_both_run cfg (r : Int) obs st = some st1) :
    FeedInv r st1 := by
  induction obs generalizing st with
  | nil =>
    simp only [comm_handler_both_run, Option.some.injEq] at hrun
    subst hrun; exact h
  | cons o os ih =>
    unfold comm_handler_both_run at hrun
    split at hrun
    · cases hi : comm_handler_both_iter cfg (r : Int) st o with
      | none => simp [hi] at hrun
      | some sa =>
        simp only [hi] at hrun
        exact ih sa (iter_feed cfg r st sa o h hi) hrun
    · simp only [Option.some.injEq] at hrun
      subst hrun; exact h

theorem init_feed (r : Nat) : FeedInv r (BothState.init (r : Int)) := by
  simp [FeedInv, BothState.init]

theorem count_feed_cpu (r n : Nat) :
    ((List.range n).map (feed_lane r)).count Lane.cpu = n / (r + 1) := by
  induction n with
  | zero => simp
  | succ n ih =>
    rw [List.range_succ, List.map_append, List.count_append, ih, Nat.succ_div]
    by_cases hd : (n + 1) % (r + 1) = 0
    · simp [feed_lane, hd, Nat.dvd_of_mod_eq_zero hd]
    · have : ¬ (r + 1) ∣ (n + 1) := fun hdvd => hd (Nat.mod_eq_zero_of_dvd hdvd)
      simp [feed_lane, hd, this]

theorem count_feed_total (r n : Nat) :
    ((List.range n).map (feed_lane r)).count Lane.cpu +
      ((List.range n).map (feed_lane r)).count Lane.gpu = n := by
  induction n with
  | zero => simp
  | succ n ih =>
    rw [List.range_succ, List.map_append, List.count_append, List.count_append]
    by_cases hd : (n + 1) % (r + 1) = 0
    · simp [feed_lane, hd]; omega
    · simp [feed_lane, hd]; omega

/-! ## C10 : feeding the two query buffers -/

/-- C10: `comm_handler_both` started with the ratio `r >= 0` that `search_both` hands
over inserts the `i`-th received broadcast block (0-based) into the CPU query buffer
exactly when `i + 1` is a multiple of `r + 1`, into the GPU query buffer otherwise;
once all `N = num_blocks` blocks are received the CPU buffer has been fed `N / (r + 1)`
blocks and the GPU buffer `N - N / (r + 1)`, the `blocks_cpu` and `blocks_gpu` of
`search_both`. -/
theorem comm_handler_both_feed (cfg : Config) (r : Int) (hr : 0 ≤ r) (hr2 : r < 2 ^ 31)
    (hN : (cfg.num_blocks : Int) < 2 ^ 63) (obs : List BothObs) (st : BothState)
    (hrun : comm_handler_both_run cfg (search_both_comm_arg r) obs
      (BothState.init (search_both_comm_arg r)) = some st) :
    st.fed.length = st.blocks_received ∧
    (∀ i, i < st.blocks_received →
      (st.fed[i]? = some Lane.cpu ↔ (r + 1) ∣ ((i : Int) + 1)) ∧
      (st.fed[i]? = some Lane.gpu ↔ ¬ (r + 1) ∣ ((i : Int) + 1))) ∧
    (st.blocks_received = cfg.num_blocks →
      ((st.fed.count Lane.cpu : Nat) : Int) = (cfg.num_blocks : Int) / (r + 1) ∧
      ((st.fed.count Lane.gpu : Nat) : Int) =
        (cfg.num_blocks : Int) - (cfg.num_blocks : Int) / (r + 1) ∧
      search_both_blocks (cfg.num_blocks : Int) r =
        some (((st.fed.count Lane.cpu : Nat) : Int), ((st.fed.count Lane.gpu : Nat) : Int))) := by
  have harg : search_both_comm_arg r = r :=
    wrap32_of_range r (by norm_num; omega) hr2
  rw [harg] at hrun
  obtain ⟨rn, rfl⟩ := Int.eq_ofNat_of_zero_le hr
  obtain ⟨hfed, -⟩ := run_feed cfg rn obs _ st (init_feed rn) hrun
  refine ⟨by rw [hfed]; simp, ?_, ?_⟩
  · intro i hi
    have hget : st.fed[i]? = some (feed_lane rn i) := by
      rw [hfed, List.getElem?_map, List.getElem?_range hi]; rfl
    have hdvd : ((rn : Int) + 1) ∣ ((i : Int) + 1) ↔ (i + 1) % (rn + 1) = 0 := by
      rw [← Nat.dvd_iff_mod_eq_zero]
      exact_mod_cast Int.natCast_dvd_natCast
    rw [hget, hdvd]
    unfold feed_lane
    by_cases hd : (i + 1) % (rn + 1) = 0 <;> simp [hd]
  · intro hall
    have hc : st.fed.count Lane.cpu = cfg.num_blocks / (rn + 1) := by
      rw [hfed, hall]; exact count_feed_cpu rn cfg.num_blocks
    have ht : st.fed.count Lane.cpu + st.fed.count Lane.gpu = cfg.num_blocks := by
      rw [hfed, hall]; exact count_feed_total rn cfg.num_blocks
    have hc1 : ((st.fed.count Lane.cpu : Nat) : Int) = (cfg.num_blocks : Int) / ((rn : Int) + 1) := by
      rw [hc]; push_cast; rfl
    have hg1 : ((st.fed.count Lane.gpu : Nat) : Int) =
        (cfg.num_blocks : Int) - (cfg.num_blocks : Int) / ((rn : Int) + 1) := by
      rw [← hc1]; omega
    refine ⟨hc1, hg1, ?_⟩
    rw [hc1, hg1]
    exact search_both_blocks_eq _ _ (by omega) hN hr (by norm_num at hr2 ⊢; omega)

theorem comm_handler_both_feed_witness :
    comm_handler_both_run ⟨1, 1, 2, 1⟩ (search_both_comm_arg 1)
      [⟨0, 0, 0⟩, ⟨0, 0, 0⟩, ⟨1, 1, 1⟩]
      (BothState.init (search_both_comm_arg 1)) =
        some ⟨2, 1, 2, [], [], [(Lane.gpu, 0), (Lane.cpu, 1)],
          comm_send_block ⟨1, 1, 2, 1⟩ ++ comm_send_block ⟨1, 1, 2, 1⟩,
          [Lane.gpu, Lane.cpu]⟩ ∧
    search_both_blocks ((2 : Nat) : Int) 1 =
      some (((([Lane.gpu, Lane.cpu] : List Lane).count Lane.cpu : Nat) : Int),
        ((([Lane.gpu, Lane.cpu] : List Lane).count Lane.gpu : Nat) : Int)) :=
  ⟨by decide,
    ((comm_handler_both_feed ⟨1, 1, 2, 1⟩ 1 (by decide) (by decide) (by decide)
      [⟨0, 0, 0⟩, ⟨0, 0, 0⟩, ⟨1, 1, 1⟩]
      ⟨2, 1, 2, [], [], [(Lane.gpu, 0), (Lane.cpu, 1)],
          comm_send_block ⟨1, 1, 2, 1⟩ ++ comm_send_block ⟨1, 1, 2, 1⟩,
          [Lane.gpu, Lane.cpu]⟩ (by decide)).2.2 rfl).2.2⟩

/-! ## C6 : order of the block ids a shard transmits -/

theorem send_ready_sent (cfg : Config) (n : Nat) (st : CommState)
    (h : st.sent = List.range st.blocks_sent) :
    (send_ready cfg n st).sent = List.range (send_ready cfg n st).blocks_sent := by
  induction n generalizing st with
  | zero => exact h
  | succ n ih =>
    simp only [send_ready]
    apply ih
    simp [List.range_succ, h]

theorem comm_handler_iter_sent (cfg : Config) (st : CommState) (o : CommObs)
    (h : st.sent = List.range st.blocks_sent) :
    (comm_handler_iter cfg st o).sent = List.range (comm_handler_iter cfg st o).blocks_sent := by
  unfold comm_handler_iter
  by_cases hc : st.blocks_sent < cfg.num_blocks ∧ 1 ≤ o.dist1 ∧ 1 ≤ o.label1
  · simp only [if_pos hc]
    split <;> exact send_ready_sent cfg _ st h
  · simp only [if_neg hc]
    split <;> exact h

theorem comm_handler_run_sent (cfg : Config) (obs : List CommObs) (st : CommState)
    (h : st.sent = List.range st.blocks_sent) :
    (comm_handler_run cfg obs st).sent = List.range (comm_handler_run cfg obs st).blocks_sent := by
  induction obs generalizing st with
  | nil => exact h
  | cons o os ih =>
    unfold comm_handler_run
    split
    · exact ih _ (comm_handler_iter_sent cfg st o h)
    · exact h

theorem lane_inv_receive (cfg : Config) (r : Int) (st : BothState) (h : LaneInv st) :
    LaneInv (receive_both cfg r st) := by
  obtain ⟨hg, hc, hgb, hcb⟩ := h
  unfold receive_both
  split
  · split
    · refine ⟨?_, hc, ?_, ?_⟩
      · show (lane_sent Lane.gpu st ++ (st.gpu_ids ++ [st.blocks_received])).Pairwise (· < ·)
        rw [← List.append_assoc, List.pairwise_append]
        refine ⟨hg, by simp, ?_⟩
        intro a ha b hb
        simp only [List.mem_singleton] at hb
        subst hb
        exact hgb a ha
      · intro x hx
        have hx1 : x ∈ lane_sent Lane.gpu st ++ (st.gpu_ids ++ [st.blocks_received]) := hx
        rw [← List.append_assoc, List.mem_append, List.mem_singleton] at hx1
        show x < st.blocks_received + 1
        rcases hx1 with hx1 | hx1
        · have := hgb x hx1; omega
        · omega
      · intro x hx
        have := hcb x hx
        show x < st.blocks_received + 1
        omega
    · refine ⟨hg, ?_, ?_, ?_⟩
      · show (lane_sent Lane.cpu st ++ (st.cpu_ids ++ [st.blocks_received])).Pairwise (· < ·)
        rw [← List.append_assoc, List.pairwise_append]
        refine ⟨hc, by simp, ?_⟩
        intro a ha b hb
        simp only [List.mem_singleton] at hb
        subst hb
        exact hcb a ha
      · intro x hx
        have := hgb x hx
        show x < st.blocks_received + 1
        omega
      · intro x hx
        have hx1 : x ∈ lane_sent Lane.cpu st ++ (st.cpu_ids ++ [st.blocks_received]) := hx
        rw [← List.append_assoc, List.mem_append, List.mem_singleton] at hx1
        show x < st.blocks_received + 1
        rcases hx1 with hx1 | hx1
        · have := hcb x hx1; omega
        · omega
  · exact ⟨hg, hc, hgb, hcb⟩

theorem lane_inv_iter (cfg : Config) (r : Int) (st st1 : BothState) (o : BothObs)
    (h : LaneInv st) (hi : comm_handler_both_iter cfg r st o = some st1) : LaneInv st1 := by
  unfold comm_handler_both_iter at hi
  cases hg : drain_gpu cfg o.readyGPU.toNat st with
  | none => simp [hg] at hi
  | some sa =>
    simp only [hg] at hi
    split at hi
    · simp at hi
    · cases hc : drain_cpu cfg (min o.cpu_dist o.cpu_label).toNat sa with
      | none => simp [hc] at hi
      | some sb =>
        simp only [hc, Option.some.injEq] at hi
        subst hi
        apply lane_inv_receive
        obtain ⟨-, g2, -, g4, g5, g6⟩ := drain_gpu_keeps cfg _ _ _ hg
        obtain ⟨-, c2, -, c4, c5, c6⟩ := drain_cpu_keeps cfg _ _ _ hc
        unfold LaneInv at h ⊢
        rw [c6, c5, c4, c2, g6, g5, g4, g2]
        exact h

theorem lane_inv_run (cfg : Config) (r : Int) (obs : List BothObs) (st st1 : BothState)
    (h : LaneInv st) (hrun : comm_handler_both_run cfg r obs st = some st1) :
    LaneInv st1 := by
  induction obs generalizing st with
  | nil =>
    simp only [comm_handler_both_run, Option.some.injEq] at hrun
    subst hrun; exact h
  | cons o os ih =>
    unfold comm_handler_both_run at hrun
    split at hrun
    · cases hi : comm_handler_both_iter cfg r st o with
      | none => simp [hi] at hrun
      | some sa =>
        simp only [hi] at hrun
        exact ih sa (lane_inv_iter cfg r st sa o h hi) hrun
    · simp only [Option.some.injEq] at hrun
      subst hrun; exact h

theorem lane_inv_init (r : Int) : LaneInv (BothState.init r) := by
  simp [LaneInv, BothState.init, lane_sent]

/-- C6 (the code differs): a run of `comm_handler_both` with ratio 1 and two blocks in
which the CPU lane completes block 1 before the GPU lane completes block 0 transmits
the block ids 1, 0, which is not an increasing sequence.  The aggregator pairs the
PartialResults of the shards by arrival order and reads no block id: with the blocks of
shard 0 arriving in the order 1, 0 it merges query 0 of shard 1 with query 1 of shard 0
and writes the answers `101, 201`, where the blocks in the order 0, 1 give
`200, 201`. -/
theorem dual_lane_ids_not_increasing :
    (∃ st, comm_handler_both_run ⟨1, 1, 2, 1⟩ 1
        [⟨0, 0, 0⟩, ⟨0, 0, 0⟩, ⟨0, 1, 1⟩, ⟨1, 0, 0⟩] (BothState.init 1) = some st ∧
      st.sent = [(Lane.cpu, 1), (Lane.gpu, 0)] ∧
      ¬ (st.sent.map Prod.snd).Pairwise (· < ·)) ∧
    (aggregator_loop (100 : Int) ⟨1, 1, 2, 1⟩ 2
        [⟨2, [101], [2]⟩, ⟨2, [100], [4]⟩, ⟨3, [200], [3]⟩, ⟨3, [201], [1]⟩]
        (aggregator_init Int ⟨1, 1, 2, 1⟩ 2)).map (fun r => r.1.answers)
      = some [101, 201] ∧
    (aggregator_loop (100 : Int) ⟨1, 1, 2, 1⟩ 2
        [⟨2, [100], [4]⟩, ⟨2, [101], [2]⟩, ⟨3, [200], [3]⟩, ⟨3, [201], [1]⟩]
        (aggregator_init Int ⟨1, 1, 2, 1⟩ 2)).map (fun r => r.1.answers)
      = some [200, 201] :=
  ⟨⟨⟨2, 1, 2, [], [], [(Lane.cpu, 1), (Lane.gpu, 0)],
      comm_send_block ⟨1, 1, 2, 1⟩ ++ comm_send_block ⟨1, 1, 2, 1⟩, [Lane.gpu, Lane.cpu]⟩,
    by decide, rfl, by decide⟩, by decide, by decide⟩

/-- The order that is kept: in every run of the single-lane `comm_handler` the block ids
transmitted are `0, 1, 2, ...`, a strictly increasing sequence; in a run of the
dual-lane `comm_handler_both` only the block ids of one lane taken by themselves are
strictly increasing. -/
theorem lane_block_ids_increasing (cfg : Config) (r : Int) (obs1 : List CommObs)
    (obs2 : List BothObs) (st : BothState)
    (hrun : comm_handler_both_run cfg r obs2 (BothState.init r) = some st) :
    (comm_handler_run cfg obs1 CommState.init).sent =
      List.range (comm_handler_run cfg obs1 CommState.init).blocks_sent ∧
    (comm_handler_run cfg obs1 CommState.init).sent.Pairwise (· < ·) ∧
    (lane_sent Lane.gpu st).Pairwise (· < ·) ∧
    (lane_sent Lane.cpu st).Pairwise (· < ·) := by
  have h1 := comm_handler_run_sent cfg obs1 CommState.init rfl
  obtain ⟨hg, hc, -, -⟩ := lane_inv_run cfg r obs2 _ st (lane_inv_init r) hrun
  refine ⟨h1, ?_, ?_, ?_⟩
  · rw [h1]; exact List.pairwise_lt_range _
  · exact (List.pairwise_append.mp hg).1
  · exact (List.pairwise_append.mp hc).1

theorem lane_block_ids_increasing_witness :
    comm_handler_both_run ⟨1, 1, 3, 1⟩ 1
      [⟨0, 0, 0⟩, ⟨0, 0, 0⟩, ⟨0, 0, 0⟩, ⟨0, 1, 1⟩, ⟨2, 0, 0⟩] (BothState.init 1) =
        some ⟨3, 0, 3, [], [], [(Lane.cpu, 1), (Lane.gpu, 0), (Lane.gpu, 2)],
          comm_send_block ⟨1, 1, 3, 1⟩ ++ comm_send_block ⟨1, 1, 3, 1⟩ ++
            comm_send_block ⟨1, 1, 3, 1⟩,
          [Lane.gpu, Lane.cpu, Lane.gpu]⟩ ∧
    ([0, 2] : List Nat).Pairwise (· < ·) :=
  ⟨by decide,
    (lane_block_ids_increasing ⟨1, 1, 3, 1⟩ 1 [⟨1, 1, 1, 1⟩]
      [⟨0, 0, 0⟩, ⟨0, 0, 0⟩, ⟨0, 0, 0⟩, ⟨0, 1, 1⟩, ⟨2, 0, 0⟩]
      ⟨3, 0, 3, [], [], [(Lane.cpu, 1), (Lane.gpu, 0), (Lane.gpu, 2)],
          comm_send_block ⟨1, 1, 3, 1⟩ ++ comm_send_block ⟨1, 1, 3, 1⟩ ++
            comm_send_block ⟨1, 1, 3, 1⟩,
          [Lane.gpu, Lane.cpu, Lane.gpu]⟩ (by decide)).2.2.1⟩

/-! ## C8 : recall reporting -/

theorem count_take_succ (row : List Int) (g : Int) (n N : Nat) (hn : n < row.length) :
    (row.take (min (n + 1) N)).count g =
      (row.take (min n N)).count g + (if n < N ∧ row[n] = g then 1 else 0) := by
  by_cases hlt : n < N
  · have h1 : min (n + 1) N = n + 1 := by omega
    have h2 : min n N = n := by omega
    rw [h1, h2, List.take_succ, List.count_append, List.getElem?_eq_getElem hn]
    by_cases hg : row[n] = g
    · simp [hlt, hg]
    · simp [hlt, hg, List.count_singleton]
  · have h1 : min (n + 1) N = N := by omega
    have h2 : min n N = N := by omega
    rw [h1, h2]
    simp [hlt]

theorem recall_query_loop (answers : List Int) (off : Nat) (g : Int)
    (c : RecallCounts) (n : Nat) (hlen : off + n ≤ answers.length) :
    (List.range n).foldlM
      (fun c j =>
        match answers[off + j]? with
        | none => none
        | some a => some (recall_answer c j a g)) c =
    some ⟨c.n_1 + ((answers.drop off).take (min n 1)).count g,
          c.n_10 + ((answers.drop off).take (min n 10)).count g,
          c.n_100 + ((answers.drop off).take (min n 100)).count g⟩ := by
  induction n with
  | zero => simp
  | succ n ih =>
    have hn : n < (answers.drop off).length := by simp; omega
    have hget : answers[off + n]? = some ((answers.drop off)[n]) := by
      rw [List.getElem_drop, List.getElem?_eq_getElem]
    rw [List.range_succ, List.foldlM_append, ih (by omega)]
    simp only [List.foldlM_cons, List.foldlM_nil, Option.bind_eq_bind, Option.some_bind, hget,
      Option.pure_def, Option.bind_some]
    rw [count_take_succ _ g n 1 hn, count_take_succ _ g n 10 hn, count_take_succ _ g n 100 hn]
    unfold recall_answer
    by_cases hg : (answers.drop off)[n] = g
    · simp only [hg, and_true, if_true]
      have e : ∀ (p : Prop) [Decidable p] (x y : Nat),
          (if p then x + y + 1 else x + y) = x + (y + if p then 1 else 0) := by
        intro p _ x y
        split <;> omega
      rw [e, e, e]
    · simp only [hg, and_false, if_false, Nat.add_zero]

theorem mul_succ_le_of_lt (i t k : Nat) (h : i < t) : i * k + k ≤ t * k := by
  have : (i + 1) * k ≤ t * k := Nat.mul_le_mul_right k h
  rw [Nat.add_mul, Nat.one_mul] at this
  exact this

theorem recall_query_eq (cfg : Config) (answers : List Int) (i : Nat) (g : Int)
    (c : RecallCounts) (hi : i < cfg.total) (hans : answers.length = cfg.total * cfg.k) :
    recall_query cfg answers i g c =
      some ⟨c.n_1 + (top_ids cfg answers i 1).count g,
            c.n_10 + (top_ids cfg answers i 10).count g,
            c.n_100 + (top_ids cfg answers i 100).count g⟩ := by
  have hle := mul_succ_le_of_lt i cfg.total cfg.k hi
  unfold recall_query top_ids
  rw [recall_query_loop answers (i * cfg.k) g c cfg.k (by omega)]
  simp only [List.take_take, Nat.min_comm]

theorem recall_counts_loop (cfg : Config) (answers gt : List Int) (hk : 1 ≤ cfg.k)
    (hdq : 0 < cfg.distinct_queries) (hans : answers.length = cfg.total * cfg.k)
    (hgt : gt.length = cfg.distinct_queries * cfg.k) (hrange : ∀ g ∈ gt, wrap32 g = g)
    (n : Nat) (hn : n ≤ cfg.total) :
    (List.range n).foldlM
      (fun c i =>
        if cfg.total = 0 ∨ cfg.distinct_queries = 0 then none
        else
          match gt[(i % cfg.distinct_queries) * cfg.k]? with
          | none => none
          | some g => recall_query cfg answers (i % cfg.total) (wrap32 g) c)
      (⟨0, 0, 0⟩ : RecallCounts) =
    some ⟨matches_upto cfg answers gt 1 n, matches_upto cfg answers gt 10 n,
          matches_upto cfg answers gt 100 n⟩ := by
  induction n with
  | zero => simp [matches_upto]
  | succ n ih =>
    have hnt : n < cfg.total := by omega
    have hidx : (n % cfg.distinct_queries) * cfg.k < gt.length := by
      have h1 : n % cfg.distinct_queries < cfg.distinct_queries := Nat.mod_lt _ hdq
      have h2 := mul_succ_le_of_lt _ _ cfg.k h1
      omega
    have hget : gt[(n % cfg.distinct_queries) * cfg.k]? =
        some (gt[(n % cfg.distinct_queries) * cfg.k]) := List.getElem?_eq_getElem hidx
    have hgn : gt_nn cfg gt n = gt[(n % cfg.distinct_queries) * cfg.k] := by
      unfold gt_nn
      rw [List.getD_eq_getElem?_getD, hget]; rfl
    have hw : wrap32 (gt[(n % cfg.distinct_queries) * cfg.k]) = gt_nn cfg gt n := by
      rw [hgn]; exact hrange _ (List.getElem_mem _)
    rw [List.range_succ, List.foldlM_append, ih (by omega)]
    simp only [List.foldlM_cons, List.foldlM_nil, Option.bind_eq_bind, Option.some_bind,
      Option.pure_def, Option.bind_some]
    rw [if_neg (by omega), hget]
    simp only [Nat.mod_eq_of_lt hnt, hw, Option.bind_some]
    rw [recall_query_eq cfg answers n _ _ hnt hans]
    simp [matches_upto, List.range_succ]

theorem sum_counts_eq_filter (c : Nat → Nat) (l : List Nat) (h : ∀ i ∈ l, c i ≤ 1) :
    (l.map c).sum = (l.filter fun i => decide (0 < c i)).length := by
  induction l with
  | nil => simp
  | cons a l ih =>
    have ha : c a ≤ 1 := h a (List.mem_cons_self _ _)
    have ih1 := ih (fun i hi => h i (List.mem_cons_of_mem _ hi))
    rw [List.map_cons, List.sum_cons, ih1, List.filter_cons]
    by_cases hp : 0 < c a
    · simp [hp]; omega
    · simp [hp]; omega

theorem matches_eq_hits (cfg : Config) (answers gt : List Int) (n : Nat)
    (h : once_in_top cfg answers gt n) :
    matches_upto cfg answers gt n cfg.total = hits cfg answers gt n := by
  unfold matches_upto hits
  rw [sum_counts_eq_filter _ _ (fun i hi => h i (List.mem_range.mp hi))]
  congr 1
  apply List.filter_congr
  intro i _
  simp [List.count_pos_iff]

theorem once_in_top_one (cfg : Config) (answers gt : List Int) :
    once_in_top cfg answers gt 1 := by
  intro i _
  unfold top_ids
  have hl : (((answers.drop (i * cfg.k)).take cfg.k).take 1).length ≤ 1 := by
    rw [List.length_take]; omega
  exact le_trans (List.count_le_length _ _) hl

theorem recall_value_pos (cfg : Config) (n : Nat) (h : 0 < cfg.total) :
    recall_value cfg n = some ((n : ℚ) / (cfg.total : ℚ)) := by
  unfold recall_value
  rw [if_neg (by omega)]

/-- Where the code agrees with the specification of recall: for every answer array of
`total * k` ids and ground-truth table of `distinct_queries * k` values of type `int`,
with `k >= 1` and `distinct_queries >= 1`, `show_recall` completes and its three counts
are the numbers of matching positions below 1, 10 and 100; the count for R@1 is the
number of queries whose ground-truth nearest neighbour is their first merged id, and a
count for R@10 or R@100 is the number of queries whose neighbour is among the first 10
or 100 merged ids provided the neighbour occurs at most once among them; the values
printed are the counts divided by `total`. -/
theorem show_recall_counts (cfg : Config) (answers gt : List Int) (hk : 1 ≤ cfg.k)
    (hdq : 0 < cfg.distinct_queries) (hans : answers.length = cfg.total * cfg.k)
    (hgt : gt.length = cfg.distinct_queries * cfg.k) (hrange : ∀ g ∈ gt, wrap32 g = g) :
    ∃ c, recall_counts cfg answers gt = some c ∧
      c.n_1 = matches_upto cfg answers gt 1 cfg.total ∧
      c.n_10 = matches_upto cfg answers gt 10 cfg.total ∧
      c.n_100 = matches_upto cfg answers gt 100 cfg.total ∧
      c.n_1 = hits cfg answers gt 1 ∧
      (once_in_top cfg answers gt 10 → c.n_10 = hits cfg answers gt 10) ∧
      (once_in_top cfg answers gt 100 → c.n_100 = hits cfg answers gt 100) ∧
      show_recall cfg answers gt =
        some ([recall_value cfg c.n_1]
          ++ (if 10 ≤ cfg.k then [recall_value cfg c.n_10] else [])
          ++ (if 100 ≤ cfg.k then [recall_value cfg c.n_100] else [])) := by
  have hc := recall_counts_loop cfg answers gt hk hdq hans hgt hrange cfg.total (le_refl _)
  refine ⟨_, hc, rfl, rfl, rfl, ?_, ?_, ?_, ?_⟩
  · exact matches_eq_hits cfg answers gt 1 (once_in_top_one cfg answers gt)
  · exact fun h => matches_eq_hits cfg answers gt 10 h
  · exact fun h => matches_eq_hits cfg answers gt 100 h
  · unfold show_recall recall_counts
    rw [hc]

theorem show_recall_counts_witness :
    show_recall ⟨1, 1, 2, 2⟩ [7, 9] [7, 3] = some [some (1 / 2)] ∧
    hits ⟨1, 1, 2, 2⟩ [7, 9] [7, 3] 1 = 1 := by
  obtain ⟨c, hc, -, -, -, h1, -, -, hs⟩ := show_recall_counts ⟨1, 1, 2, 2⟩ [7, 9] [7, 3]
    (by decide) (by decide) (by decide) (by decide) (by decide)
  have hh : hits ⟨1, 1, 2, 2⟩ [7, 9] [7, 3] 1 = 1 := by decide
  refine ⟨?_, hh⟩
  rw [hs, h1, hh, recall_value_pos _ _ (by decide)]
  norm_num [Config.total]

/-! ## The merge: the scan selects the leftmost smallest current distance -/

theorem scan_shard_eq {α : Type} [LinearOrder α] (fltMax : α)
    (results : List (PartialResult α)) (counter : List Nat) (k n : Nat)
    (hb : InBounds results counter k n) (b : Best α) (s : Nat) (hs : s < n) :
    scan_shard results counter k b s = some (scan_pure fltMax results counter b s) := by
  obtain ⟨c, r, hc, hck, hr, hd, hi⟩ := hb s hs
  have e1 : cur_dist fltMax results counter s = r.dists[c] := by
    simp [cur_dist, List.getD_eq_getElem?_getD, hc, hr, List.getElem?_eq_getElem hd]
  have e2 : cur_id results counter s = r.ids[c] := by
    simp [cur_id, List.getD_eq_getElem?_getD, hc, hr, List.getElem?_eq_getElem hi]
  unfold scan_shard scan_pure
  simp only [hc, hr, if_neg (Nat.ne_of_lt hck), List.getElem?_eq_getElem hd,
    List.getElem?_eq_getElem hi, e1, e2]
  split <;> rfl

theorem scan_fold_eq {α : Type} [LinearOrder α] (fltMax : α)
    (results : List (PartialResult α)) (counter : List Nat) (k n : Nat)
    (hb : InBounds results counter k n) (b : Best α) :
    (List.range n).foldlM (scan_shard results counter k) b =
      some ((List.range n).foldl (scan_pure fltMax results counter) b) := by
  induction n with
  | zero => rfl
  | succ n ih =>
    have hb1 : InBounds results counter k n := fun s hs => hb s (by omega)
    rw [List.range_succ, List.foldlM_append, ih hb1, List.foldl_append]
    simp only [List.foldlM_cons, List.foldlM_nil, Option.bind_eq_bind, Option.some_bind,
      List.foldl_cons, List.foldl_nil]
    rw [scan_shard_eq fltMax results counter k (n + 1) hb _ n (by omega)]
    rfl

/-- What the inner loop has found after the shards below `n`: nothing when no current
distance is below `fltMax`, otherwise the leftmost shard with the smallest one. -/
theorem scan_fold_spec {α : Type} [LinearOrder α] (fltMax : α)
    (results : List (PartialResult α)) (counter : List Nat) (n : Nat) :
    let d := cur_dist fltMax results counter
    let B := (List.range n).foldl (scan_pure fltMax results counter) (Best.init fltMax)
    (B = Best.init fltMax ∧ ∀ t, t < n → ¬ d t < fltMax) ∨
    (∃ s, s < n ∧ B = ⟨d s, cur_id results counter s, (s : Int)⟩ ∧ d s < fltMax ∧
      (∀ t, t < s → d s < d t) ∧ ∀ t, s ≤ t → t < n → d s ≤ d t) := by
  intro d B
  induction n with
  | zero => left; exact ⟨rfl, fun t ht => absurd ht (Nat.not_lt_zero t)⟩
  | succ n ih =>
    have hB : B = scan_pure fltMax results counter
        ((List.range n).foldl (scan_pure fltMax results counter) (Best.init fltMax)) n := by
      simp only [B, List.range_succ, List.foldl_append, List.foldl_cons, List.foldl_nil]
    rcases ih with ⟨h0, hno⟩ | ⟨s, hs, hBs, hlt, hleft, hright⟩
    · rw [h0] at hB
      by_cases hn : d n < fltMax
      · right
        refine ⟨n, by omega, ?_, hn, ?_, ?_⟩
        · rw [hB]; simp only [scan_pure, Best.init]; rw [if_pos hn]
        · intro t ht
          exact lt_of_lt_of_le hn (not_lt.mp (hno t ht))
        · intro t h1 h2
          have : t = n := by omega
          subst this; exact le_refl _
      · left
        refine ⟨?_, ?_⟩
        · rw [hB]; simp only [scan_pure, Best.init]; rw [if_neg hn]
        · intro t ht
          rcases Nat.lt_succ_iff_lt_or_eq.mp ht with h | h
          · exact hno t h
          · subst h; exact hn
    · rw [hBs] at hB
      by_cases hn : d n < d s
      · right
        refine ⟨n, by omega, ?_, lt_trans hn hlt, ?_, ?_⟩
        · rw [hB]; simp only [scan_pure]; rw [if_pos hn]
        · intro t ht
          rcases Nat.lt_or_ge t s with h | h
          · exact lt_trans hn (hleft t h)
          · exact lt_of_lt_of_le hn (hright t h ht)
        · intro t h1 h2
          have : t = n := by omega
          subst this; exact le_refl _
      · right
        refine ⟨s, by omega, ?_, hlt, hleft, ?_⟩
        · rw [hB]; simp only [scan_pure]; rw [if_neg hn]
        · intro t h1 h2
          rcases Nat.lt_succ_iff_lt_or_eq.mp h2 with h | h
          · exact hright t h1 h
          · subst h; exact not_lt.mp hn

theorem sum_set_succ (l : List Nat) (s c : Nat) (h : l[s]? = some c) :
    (l.set s (c + 1)).sum = l.sum + 1 := by
  induction l generalizing s with
  | nil => simp at h
  | cons a l ih =>
    cases s with
    | zero =>
      simp only [List.getElem?_cons_zero, Option.some.injEq] at h
      subst h
      simp only [List.set_cons_zero, List.sum_cons]; omega
    | succ s =>
      simp only [List.getElem?_cons_succ] at h
      simp only [List.set_cons_succ, List.sum_cons, ih s h]; omega

theorem getElem?_le_sum (l : List Nat) (s c : Nat) (h : l[s]? = some c) : c ≤ l.sum := by
  induction l generalizing s with
  | nil => simp at h
  | cons a l ih =>
    cases s with
    | zero =>
      simp only [List.getElem?_cons_zero, Option.some.injEq] at h
      subst h
      simp
    | succ s =>
      simp only [List.getElem?_cons_succ] at h
      have := ih s h
      simp only [List.sum_cons]; omega

theorem in_bounds_of_input {α : Type} [LinearOrder α] (fltMax : α)
    (results : List (PartialResult α)) (counter : List Nat) (nshards k : Nat)
    (hin : MergeInput fltMax results nshards k) (hlen : counter.length = nshards)
    (hsum : counter.sum < k) : InBounds results counter k nshards := by
  intro s hs
  obtain ⟨hr, hall⟩ := hin
  have hs1 : s < counter.length := by omega
  have hs2 : s < results.length := by omega
  have hc : counter[s]? = some counter[s] := List.getElem?_eq_getElem hs1
  have hck : counter[s] < k := lt_of_le_of_lt (getElem?_le_sum counter s _ hc) hsum
  obtain ⟨h1, h2, -⟩ := hall results[s] (List.getElem_mem _)
  exact ⟨counter[s], results[s], hc, hck, List.getElem?_eq_getElem hs2, by omega, by omega⟩

theorem cur_dist_lt {α : Type} [LinearOrder α] (fltMax : α)
    (results : List (PartialResult α)) (counter : List Nat) (nshards k : Nat)
    (hin : MergeInput fltMax results nshards k) (hlen : counter.length = nshards)
    (hsum : counter.sum < k) (s : Nat) (hs : s < nshards) :
    cur_dist fltMax results counter s < fltMax := by
  obtain ⟨c, r, hc, hck, hr, hd, -⟩ :=
    in_bounds_of_input fltMax results counter nshards k hin hlen hsum s hs
  have hmem : r ∈ results := List.getElem?_mem hr
  obtain ⟨-, -, hlt⟩ := hin.2 r hmem
  have e1 : cur_dist fltMax results counter s = r.dists[c] := by
    simp [cur_dist, List.getD_eq_getElem?_getD, hc, hr, List.getElem?_eq_getElem hd]
  rw [e1]
  exact hlt c hck _ (List.getElem?_eq_getElem hd)

/-- On a usable input with at least one shard the inner loop selects a shard: the
leftmost one with the smallest current distance. -/
theorem scan_all_selects {α : Type} [LinearOrder α] (fltMax : α)
    (results : List (PartialResult α)) (counter : List Nat) (nshards k : Nat)
    (hn : 1 ≤ nshards) (hin : MergeInput fltMax results nshards k)
    (hlen : counter.length = nshards) (hsum : counter.sum < k) :
    ∃ s, s < nshards ∧
      scan_all fltMax results counter nshards k =
        some ⟨cur_dist fltMax results counter s, cur_id results counter s, (s : Int)⟩ ∧
      (∀ t, t < s → cur_dist fltMax results counter s < cur_dist fltMax results counter t) ∧
      ∀ t, s ≤ t → t < nshards →
        cur_dist fltMax results counter s ≤ cur_dist fltMax results counter t := by
  have hb := in_bounds_of_input fltMax results counter nshards k hin hlen hsum
  unfold scan_all
  rw [scan_fold_eq fltMax results counter k nshards hb]
  rcases scan_fold_spec fltMax results counter nshards with ⟨-, hno⟩ | ⟨s, hs, hB, -, hl, hr⟩
  · exact absurd (cur_dist_lt fltMax results counter nshards k hin hlen hsum 0 (by omega))
      (hno 0 (by omega))
  · exact ⟨s, hs, by rw [hB], hl, hr⟩

/-- On a usable input with at least one shard `merge_results` completes and writes
exactly `k` ids. -/
theorem merge_loop_total {α : Type} [LinearOrder α] (fltMax : α)
    (results : List (PartialResult α)) (nshards k : Nat) (hn : 1 ≤ nshards)
    (hin : MergeInput fltMax results nshards k) (iters : Nat) (counter : List Nat)
    (answers : List Int) (hlen : counter.length = nshards) (hsum : counter.sum + iters = k) :
    ∃ ids, merge_loop fltMax results nshards k iters counter answers = some ids ∧
      ids.length = answers.length + iters := by
  induction iters generalizing counter answers with
  | zero => exact ⟨answers, rfl, rfl⟩
  | succ iters ih =>
    obtain ⟨s, hs, hscan, -, -⟩ :=
      scan_all_selects fltMax results counter nshards k hn hin hlen (by omega)
    have hc : counter[s]? = some counter[s] := List.getElem?_eq_getElem (by omega)
    obtain ⟨ids, h1, h2⟩ := ih (counter.set s (counter[s] + 1))
      (answers ++ [cur_id results counter s]) (by simp [hlen])
      (by rw [sum_set_succ counter s _ hc]; omega)
    refine ⟨ids, ?_, by simp at h2; omega⟩
    unfold merge_loop
    simp only [hscan, Int.toNat_ofNat, hc]
    rw [if_neg (by omega)]
    exact h1

theorem merge_results_total {α : Type} [LinearOrder α] (fltMax : α)
    (results : List (PartialResult α)) (nshards k : Nat) (hn : 1 ≤ nshards)
    (hin : MergeInput fltMax results nshards k) :
    ∃ ids, merge_results fltMax results nshards k = some ids ∧ ids.length = k := by
  obtain ⟨ids, h1, h2⟩ := merge_loop_total fltMax results nshards k hn hin k
    (List.replicate nshards 0) [] (by simp) (by simp)
  exact ⟨ids, h1, by simpa using h2⟩

/-! ## C1, C4 : the merge on distances equal to the initial `bestDist` -/

/-- C4 (the code differs): on two shards whose `k = 2` distances are all equal to the
largest finite float, and on zero shards with `k = 1`, no shard is selected in the first
`topi` iteration, so `fromShard` is still `-1` at `counter[fromShard]++`: the execution
of `merge_results` is undefined instead of completing with `k` ids. -/
theorem merge_results_none_selected :
    merge_results FLT_MAX
      [ofPairs [(FLT_MAX, 10), (FLT_MAX, 11)], ofPairs [(FLT_MAX, 20), (FLT_MAX, 21)]] 2 2
      = none ∧
    scan_all FLT_MAX
      [ofPairs [(FLT_MAX, 10), (FLT_MAX, 11)], ofPairs [(FLT_MAX, 20), (FLT_MAX, 21)]]
      [0, 0] 2 2 = some ⟨FLT_MAX, -1, -1⟩ ∧
    merge_results FLT_MAX [] 0 1 = none := by
  refine ⟨?_, ?_, ?_⟩
  · simp [merge_results, merge_loop, scan_all, scan_shard, List.range, List.range.loop,
      ofPairs, Best.init]
  · simp [scan_all, scan_shard, List.range, List.range.loop, ofPairs, Best.init]
  · simp [merge_results, merge_loop, scan_all, Best.init]

/-- C1 (the code differs): for `k = 2` and the two ascending lists
`[(1, 10), (FLT_MAX, 11)]` and `[(FLT_MAX, 20), (FLT_MAX, 21)]` the stable merge has the
first two ids `10, 11`, but after selecting id 10 the scan finds no distance strictly
below the initial `bestDist`, so `merge_results` indexes `counter` with `-1`: its
execution is undefined.  On the example of the specification (all distances below the
initial `bestDist`) the code gives the ids `10, 20, 11` of the stable merge. -/
theorem merge_results_sentinel_tail :
    ([(1, 10), (FLT_MAX, 11)] : List (ℚ × Int)).Pairwise (fun a b => a.1 ≤ b.1) ∧
    ([(FLT_MAX, 20), (FLT_MAX, 21)] : List (ℚ × Int)).Pairwise (fun a b => a.1 ≤ b.1) ∧
    stable_topk [[(1, 10), (FLT_MAX, 11)], [(FLT_MAX, 20), (FLT_MAX, 21)]] 2 = [10, 11] ∧
    merge_results FLT_MAX
      [ofPairs [(1, 10), (FLT_MAX, 11)], ofPairs [(FLT_MAX, 20), (FLT_MAX, 21)]] 2 2
      = none ∧
    merge_results FLT_MAX
      [ofPairs [(1, 10), (2, 11), (5, 12)], ofPairs [(3 / 2, 20), (3, 21), (4, 22)]] 2 3
      = some [10, 20, 11] := by
  refine ⟨?_, ?_, ?_, ?_, ?_⟩
  · simp [FLT_MAX]
  · simp
  · simp [stable_topk, List.insertionSort, List.orderedInsert, FLT_MAX]
  · simp [merge_results, merge_loop, scan_all, scan_shard, List.range, List.range.loop,
      ofPairs, Best.init, FLT_MAX]
  · simp [merge_results, merge_loop, scan_all, scan_shard, List.range, List.range.loop,
      ofPairs, Best.init, FLT_MAX]
    norm_num

/-! ## The aggregator: queues, gating and ownership -/

theorem enqueued_from_append {α : Type} (cfg : Config) (s h : Nat) (msgs : List (Msg α))
    (m : Msg α) :
    enqueued_from cfg s h (msgs ++ [m]) =
      enqueued_from cfg s h msgs ++
        (if m.source = s + 2 then
          enqueue_block cfg m.D m.I (h + 2 * msgs.length + 1) (h + 2 * msgs.length)
        else []) := by
  induction msgs generalizing h with
  | nil => simp [enqueued_from]
  | cons a l ih =>
    have e : h + 2 + 2 * l.length = h + 2 * (l.length + 1) := by omega
    have step : enqueued_from cfg s h (a :: (l ++ [m])) =
        (if a.source = s + 2 then enqueue_block cfg a.D a.I (h + 1) h else []) ++
          enqueued_from cfg s (h + 2) (l ++ [m]) := rfl
    have step2 : enqueued_from cfg s h (a :: l) =
        (if a.source = s + 2 then enqueue_block cfg a.D a.I (h + 1) h else []) ++
          enqueued_from cfg s (h + 2) l := rfl
    rw [List.cons_append, step, step2, ih, e, List.length_cons, List.append_assoc]

theorem enqueued_append {α : Type} (cfg : Config) (s : Nat) (msgs : List (Msg α))
    (m : Msg α) :
    enqueued cfg s (msgs ++ [m]) =
      enqueued cfg s msgs ++
        (if m.source = s + 2 then
          enqueue_block cfg m.D m.I (2 * msgs.length + 1) (2 * msgs.length)
        else []) := by
  have := enqueued_from_append cfg s 0 msgs m
  simpa [enqueued] using this

theorem enqueue_block_length {α : Type} (cfg : Config) (D : List α) (I : List Int)
    (hD hI : Nat) : (enqueue_block cfg D I hD hI).length = cfg.block_size := by
  simp [enqueue_block]

theorem enqueued_length {α : Type} (cfg : Config) (s : Nat) (msgs : List (Msg α)) :
    (enqueued cfg s msgs).length =
      cfg.block_size * (msgs.filter fun m => m.source = s + 2).length := by
  induction msgs using List.reverseRecOn with
  | nil => simp [enqueued, enqueued_from]
  | append_singleton l m ih =>
    rw [enqueued_append, List.length_append, ih, List.filter_append, List.length_append]
    by_cases hm : m.source = s + 2
    · simp [hm, enqueue_block_length, Nat.mul_add]
    · simp [hm]

theorem pop_fold {α : Type} (queue : List (List (PartialResult α)))
    (acc : List (PartialResult α)) (n : Nat) (hn : n ≤ queue.length)
    (hne : ∀ q ∈ queue, q ≠ []) :
    (List.range n).foldlM pop_front (queue, acc) =
      some ((queue.take n).map List.tail ++ queue.drop n,
        acc ++ (queue.take n).map fun q => q.headD nilPR) := by
  induction n with
  | zero => simp
  | succ n ih =>
    have hlt : n < queue.length := by omega
    rw [List.range_succ, List.foldlM_append, ih (by omega)]
    simp only [List.foldlM_cons, List.foldlM_nil, Option.bind_eq_bind, Option.some_bind]
    have hlenA : ((queue.take n).map List.tail).length = n := by
      simp [List.length_take]; omega
    have hget : ((queue.take n).map List.tail ++ queue.drop n)[n]? = some queue[n] := by
      rw [List.getElem?_append_right (by omega), hlenA, Nat.sub_self,
        List.drop_eq_getElem_cons hlt]
      simp
    have hq : queue[n] ≠ [] := hne _ (List.getElem_mem _)
    obtain ⟨r, rest, hrr⟩ := List.exists_cons_of_ne_nil hq
    unfold pop_front
    simp only [hget, hrr]
    have hset : ((queue.take n).map List.tail ++ queue.drop n).set n rest =
        (queue.take (n + 1)).map List.tail ++ queue.drop (n + 1) := by
      rw [List.set_append_right _ _ (by omega), hlenA, Nat.sub_self,
        List.drop_eq_getElem_cons hlt, List.set_cons_zero, List.take_succ,
        List.getElem?_eq_getElem hlt, hrr]
      simp
    have hacc : (acc ++ (queue.take n).map fun q => q.headD nilPR) ++ [r] =
        acc ++ (queue.take (n + 1)).map fun q => q.headD nilPR := by
      rw [List.take_succ, List.getElem?_eq_getElem hlt, hrr]
      simp
    simp only [hset, hacc]
    rfl

theorem aggregate_query_eq {α : Type} [LinearOrder α] (fltMax : α)
    (queue : List (List (PartialResult α))) (nshards k : Nat)
    (hlen : queue.length = nshards) (hne : ∀ q ∈ queue, q ≠ []) :
    aggregate_query fltMax queue nshards k =
      match merge_results fltMax (queue.map fun q => q.headD nilPR) nshards k with
      | none => none
      | some ids =>
        some (queue.map List.tail, queue.map (fun q => q.headD nilPR), ids,
          owned (queue.map fun q => q.headD nilPR)) := by
  unfold aggregate_query
  rw [pop_fold queue [] nshards (by omega) hne]
  simp only [← hlen, List.take_length, List.drop_length, List.append_nil, List.nil_append]
  rfl

theorem has_empty_queue_of {α : Type} (cfg : Config) (nshards : Nat) (msgs : List (Msg α))
    (qn : Nat) :
    has_empty (queue_of cfg nshards msgs qn) nshards = false ↔
      ∀ s, s < nshards → qn < (enqueued cfg s msgs).length := by
  unfold has_empty queue_of
  rw [List.any_eq_false]
  constructor
  · intro h s hs
    have := h s (List.mem_range.mpr hs)
    simp only [List.getD_eq_getElem?_getD, List.getElem?_map, List.getElem?_range hs,
      Option.map_some', Option.getD_some, List.isEmpty_iff, List.drop_eq_nil_iff] at this
    omega
  · intro h s hs
    have hs1 := List.mem_range.mp hs
    have := h s hs1
    simp only [List.getD_eq_getElem?_getD, List.getElem?_map, List.getElem?_range hs1,
      Option.map_some', Option.getD_some, List.isEmpty_iff, List.drop_eq_nil_iff]
    omega

theorem has_empty_true_queue_of {α : Type} (cfg : Config) (nshards : Nat)
    (msgs : List (Msg α)) (qn : Nat)
    (h : has_empty (queue_of cfg nshards msgs qn) nshards = true) :
    ∃ s, s < nshards ∧ (enqueued cfg s msgs).length ≤ qn := by
  by_contra hcon
  have : has_empty (queue_of cfg nshards msgs qn) nshards = false := by
    rw [has_empty_queue_of]
    intro s hs
    by_contra hlt
    exact hcon ⟨s, hs, by omega⟩
  rw [this] at h
  exact Bool.false_ne_true h

theorem queue_of_tail {α : Type} (cfg : Config) (nshards : Nat) (msgs : List (Msg α))
    (qn : Nat) :
    (queue_of cfg nshards msgs qn).map List.tail = queue_of cfg nshards msgs (qn + 1) := by
  simp [queue_of, List.tail_drop]

theorem queue_of_head {α : Type} (cfg : Config) (nshards : Nat) (msgs : List (Msg α))
    (qn : Nat) :
    (queue_of cfg nshards msgs qn).map (fun q => q.headD nilPR) =
      row_of cfg nshards msgs qn := by
  simp only [queue_of, row_of, List.map_map]
  apply List.map_congr_left
  intro s _
  simp [List.getD_eq_getElem?_getD]

theorem owned_append {α : Type} (a b : List (PartialResult α)) :
    owned (a ++ b) = owned a ++ owned b := by
  simp [owned]

theorem owned_perm {α : Type} {a b : List (PartialResult α)} (h : a.Perm b) :
    (owned a).Perm (owned b) :=
  (h.map frees_of).flatten

theorem perm_heads_tails {α : Type} (queue : List (List (PartialResult α)))
    (hne : ∀ q ∈ queue, q ≠ []) :
    queue.flatten.Perm
      (queue.map (fun q => q.headD nilPR) ++ (queue.map List.tail).flatten) := by
  induction queue with
  | nil => simp
  | cons a l ih =>
    obtain ⟨r, rest, hrr⟩ := List.exists_cons_of_ne_nil (hne a (List.mem_cons_self _ _))
    have ih1 := ih (fun q hq => hne q (List.mem_cons_of_mem _ hq))
    subst hrr
    simp only [List.flatten_cons, List.map_cons, List.headD_cons, List.tail_cons,
      List.cons_append]
    apply List.Perm.cons
    exact (List.Perm.append_left rest ih1).trans (List.perm_append_comm_assoc _ _ _)

theorem queued_tail {α : Type} (queue : List (List (PartialResult α)))
    (hne : ∀ q ∈ queue, q ≠ []) :
    queued (queue.map List.tail) + queue.length = queued queue := by
  induction queue with
  | nil => simp [queued]
  | cons a l ih =>
    obtain ⟨r, rest, hrr⟩ := List.exists_cons_of_ne_nil (hne a (List.mem_cons_self _ _))
    have ih1 := ih (fun q hq => hne q (List.mem_cons_of_mem _ hq))
    subst hrr
    simp only [queued, List.map_cons, List.tail_cons, List.sum_cons, List.length_cons] at ih1 ⊢
    omega

theorem flatten_set_append {β : Type} (L : List (List β)) (i : Nat) (b : List β)
    (hi : i < L.length) :
    (L.set i (L.getD i [] ++ b)).flatten.Perm (L.flatten ++ b) := by
  induction L generalizing i with
  | nil => simp at hi
  | cons a l ih =>
    cases i with
    | zero =>
      simp only [List.set_cons_zero, List.flatten_cons, List.getD_cons_zero]
      rw [List.append_assoc, List.append_assoc]
      exact List.Perm.append_left a List.perm_append_comm
    | succ i =>
      simp only [List.set_cons_succ, List.flatten_cons, List.getD_cons_succ,
        List.append_assoc]
      exact List.Perm.append_left a (ih i (by simpa using hi))

theorem owned_no_owner {α : Type} (l : List (PartialResult α))
    (h : ∀ r ∈ l, r.own_fields = false) : owned l = [] := by
  induction l with
  | nil => rfl
  | cons a l ih =>
    have ha := h a (List.mem_cons_self _ _)
    simp only [owned, List.map_cons, List.flatten_cons, frees_of, ha]
    exact ih (fun r hr => h r (List.mem_cons_of_mem _ hr))

theorem owned_enqueue_block {α : Type} (cfg : Config) (D : List α) (I : List Int)
    (hD hI : Nat) (hbs : 1 ≤ cfg.block_size) :
    owned (enqueue_block cfg D I hD hI) = [hD, hI] := by
  obtain ⟨n, hn⟩ : ∃ n, cfg.block_size = n + 1 := ⟨cfg.block_size - 1, by omega⟩
  unfold enqueue_block
  rw [hn, List.range_succ, List.map_append, owned_append, owned_no_owner]
  · simp [owned, frees_of]
  · intro r hr
    simp only [List.mem_map, List.mem_range] at hr
    obtain ⟨q, hq, rfl⟩ := hr
    simp only [decide_eq_false_iff_not]
    push_cast
    omega

theorem write_at_length (answers : List Int) (off : Nat) (ids answers1 : List Int)
    (h : write_at answers off ids = some answers1) : answers1.length = answers.length := by
  unfold write_at at h
  split at h
  · simp only [Option.some.injEq] at h
    subst h
    simp only [List.length_append, List.length_take, List.length_drop]
    omega
  · simp at h

theorem queue_of_length {α : Type} (cfg : Config) (nshards : Nat) (msgs : List (Msg α))
    (qn : Nat) : (queue_of cfg nshards msgs qn).length = nshards := by
  simp [queue_of]

theorem queue_of_nonempty {α : Type} (cfg : Config) (nshards : Nat) (msgs : List (Msg α))
    (qn : Nat) (h : ∀ s, s < nshards → qn < (enqueued cfg s msgs).length) :
    ∀ q ∈ queue_of cfg nshards msgs qn, q ≠ [] := by
  intro q hq
  simp only [queue_of, List.mem_map, List.mem_range] at hq
  obtain ⟨s, hs, rfl⟩ := hq
  intro hnil
  have := List.drop_eq_nil_iff.mp hnil
  have := h s hs
  omega

/-- One turn of the loop `while (true)` from a state that satisfies the invariant and
has no empty queue. -/
theorem drain_turn {α : Type} (cfg : Config) (nshards : Nat)
    (msgs : List (Msg α)) (st : AggState α) (ids answers1 : List Int)
    (h : AggInv cfg nshards msgs st)
    (hne : ∀ s, s < nshards → st.qn < (enqueued cfg s msgs).length)
    (hw : write_at st.answers ((st.qn % cfg.total) * cfg.k) ids = some answers1) :
    AggInv cfg nshards msgs
      { st with
        queue := st.queue.map List.tail
        answers := answers1
        queries_remaining := st.queries_remaining - 1
        qn := st.qn + 1
        freed := st.freed ++ owned (st.queue.map fun q => q.headD nilPR)
        merged := st.merged ++ [st.queue.map fun q => q.headD nilPR] } ∧
    (OwnInv st → OwnInv
      { st with
        queue := st.queue.map List.tail
        answers := answers1
        queries_remaining := st.queries_remaining - 1
        qn := st.qn + 1
        freed := st.freed ++ owned (st.queue.map fun q => q.headD nilPR)
        merged := st.merged ++ [st.queue.map fun q => q.headD nilPR] }) := by
  obtain ⟨hq, hle, hm, hh, hf, hr, ha⟩ := h
  have hnon : ∀ q ∈ st.queue, q ≠ [] := by
    rw [hq]; exact queue_of_nonempty cfg nshards msgs st.qn hne
  refine ⟨⟨?_, ?_, ?_, hh, ?_, ?_, ?_⟩, ?_⟩
  · show st.queue.map List.tail = queue_of cfg nshards msgs (st.qn + 1)
    rw [hq, queue_of_tail]
  · intro s hs
    have := hne s hs
    show st.qn + 1 ≤ _
    omega
  · show st.merged ++ [st.queue.map fun q => q.headD nilPR] = _
    rw [List.range_succ, List.map_append, ← hm, hq, queue_of_head]
    rfl
  · show st.freed ++ owned (st.queue.map fun q => q.headD nilPR) = _
    simp only [List.flatten_append, List.flatten_cons, List.flatten_nil, List.append_nil,
      owned_append, hf]
  · show st.queries_remaining - 1 = (cfg.total : Int) - ((st.qn + 1 : Nat) : Int)
    rw [hr]; push_cast; ring
  · show answers1.length = _
    rw [write_at_length _ _ _ _ hw, ha]
  · intro ho
    unfold OwnInv at ho ⊢
    show (st.freed ++ owned (st.queue.map fun q => q.headD nilPR) ++
      owned (st.queue.map List.tail).flatten).Perm _
    refine List.Perm.trans ?_ ho
    rw [List.append_assoc, ← owned_append]
    exact List.Perm.append_left _ (owned_perm (perm_heads_tails st.queue hnon)).symm

theorem drain_inv {α : Type} [LinearOrder α] (fltMax : α) (cfg : Config) (nshards : Nat)
    (msgs : List (Msg α)) (fuel : Nat) (st st1 : AggState α)
    (h : AggInv cfg nshards msgs st) (hd : drain fltMax cfg nshards fuel st = some st1) :
    AggInv cfg nshards msgs st1 ∧ has_empty st1.queue nshards = true ∧
    st1.next_handle = st.next_handle ∧ (OwnInv st → OwnInv st1) := by
  induction fuel generalizing st with
  | zero => simp [drain] at hd
  | succ fuel ih =>
    unfold drain at hd
    by_cases he : has_empty st.queue nshards = true
    · rw [if_pos he] at hd
      simp only [Option.some.injEq] at hd
      subst hd
      exact ⟨h, he, rfl, id⟩
    · rw [if_neg he] at hd
      have he1 : has_empty st.queue nshards = false := by simpa using he
      have hq := h.1
      rw [hq, has_empty_queue_of] at he1
      have hnon : ∀ q ∈ st.queue, q ≠ [] := by
        rw [hq]; exact queue_of_nonempty cfg nshards msgs st.qn he1
      have hlen : st.queue.length = nshards := by rw [hq]; exact queue_of_length _ _ _ _
      split at hd
      · simp at hd
      · rw [aggregate_query_eq fltMax st.queue nshards cfg.k hlen hnon] at hd
        cases hm : merge_results fltMax (st.queue.map fun q => q.headD nilPR) nshards cfg.k with
        | none => rw [hm] at hd; simp at hd
        | some ids =>
          rw [hm] at hd
          simp only [] at hd
          cases hw : write_at st.answers ((st.qn % cfg.total) * cfg.k) ids with
          | none => rw [hw] at hd; simp at hd
          | some answers1 =>
            rw [hw] at hd
            simp only [] at hd
            obtain ⟨hinv, hown⟩ := drain_turn cfg nshards msgs st ids answers1 h he1 hw
            obtain ⟨r1, r2, r3, r4⟩ := ih _ hinv hd
            exact ⟨r1, r2, r3, fun ho => r4 (hown ho)⟩

theorem queue_of_getD {α : Type} (cfg : Config) (nshards : Nat) (msgs : List (Msg α))
    (qn s : Nat) (hs : s < nshards) :
    (queue_of cfg nshards msgs qn).getD s [] = (enqueued cfg s msgs).drop qn := by
  simp [queue_of, List.getD_eq_getElem?_getD, List.getElem?_range hs]

theorem queue_of_enqueue {α : Type} (cfg : Config) (nshards : Nat) (msgs : List (Msg α))
    (m : Msg α) (qn shard : Nat) (hsrc : m.source = shard + 2) (hs : shard < nshards)
    (hle : qn ≤ (enqueued cfg shard msgs).length) :
    (queue_of cfg nshards msgs qn).set shard
        ((queue_of cfg nshards msgs qn).getD shard [] ++
          enqueue_block cfg m.D m.I (2 * msgs.length + 1) (2 * msgs.length)) =
      queue_of cfg nshards (msgs ++ [m]) qn := by
  rw [queue_of_getD cfg nshards msgs qn shard hs]
  apply List.ext_getElem?
  intro j
  rw [List.getElem?_set]
  by_cases hj : shard = j
  · subst hj
    rw [if_pos rfl, if_pos (by rw [queue_of_length]; exact hs)]
    simp only [queue_of, List.getElem?_map, List.getElem?_range hs, Option.map_some',
      enqueued_append, hsrc, if_true]
    rw [List.drop_append_of_le_length hle]
  · rw [if_neg hj]
    by_cases hjn : j < nshards
    · have hne : ¬ m.source = j + 2 := by omega
      simp only [queue_of, List.getElem?_map, List.getElem?_range hjn, Option.map_some',
        enqueued_append, hne, if_false, List.append_nil]
    · have h1 : (queue_of cfg nshards msgs qn)[j]? = none :=
        List.getElem?_eq_none (by rw [queue_of_length]; omega)
      have h2 : (queue_of cfg nshards (msgs ++ [m]) qn)[j]? = none :=
        List.getElem?_eq_none (by rw [queue_of_length]; omega)
      rw [h1, h2]

theorem row_of_append {α : Type} (cfg : Config) (nshards : Nat) (msgs : List (Msg α))
    (m : Msg α) (q : Nat) (h : ∀ s, s < nshards → q < (enqueued cfg s msgs).length) :
    row_of cfg nshards (msgs ++ [m]) q = row_of cfg nshards msgs q := by
  unfold row_of
  apply List.map_congr_left
  intro s hs
  have hlt := h s (List.mem_range.mp hs)
  simp only [List.getD_eq_getElem?_getD, enqueued_append]
  rw [List.getElem?_append_left hlt]

/-- The pushes of one iteration keep the invariant, for the messages extended by the one
received. -/
theorem enqueue_inv {α : Type} (cfg : Config) (nshards : Nat) (msgs : List (Msg α))
    (st : AggState α) (m : Msg α) (rq : List Int) (shard : Nat)
    (hsrc : m.source = shard + 2) (hs : shard < nshards) (h : AggInv cfg nshards msgs st) :
    AggInv cfg nshards (msgs ++ [m])
      { st with
        queue := st.queue.set shard
          (st.queue.getD shard [] ++
            enqueue_block cfg m.D m.I (st.next_handle + 1) st.next_handle)
        remaining_queries_per_shard := rq
        next_handle := st.next_handle + 2 } ∧
    (1 ≤ cfg.block_size → OwnInv st → OwnInv
      { st with
        queue := st.queue.set shard
          (st.queue.getD shard [] ++
            enqueue_block cfg m.D m.I (st.next_handle + 1) st.next_handle)
        remaining_queries_per_shard := rq
        next_handle := st.next_handle + 2 }) := by
  obtain ⟨hq, hle, hm, hh, hf, hr, ha⟩ := h
  refine ⟨⟨?_, ?_, ?_, ?_, hf, hr, ha⟩, ?_⟩
  · show st.queue.set shard (st.queue.getD shard [] ++
      enqueue_block cfg m.D m.I (st.next_handle + 1) st.next_handle) = _
    rw [hq, hh]
    exact queue_of_enqueue cfg nshards msgs m st.qn shard hsrc hs (hle shard hs)
  · intro s hs1
    have := hle s hs1
    show st.qn ≤ _
    rw [enqueued_append, List.length_append]
    omega
  · show st.merged = _
    rw [hm]
    apply List.map_congr_left
    intro q hq1
    rw [row_of_append]
    intro s hs1
    have := hle s hs1
    have := List.mem_range.mp hq1
    omega
  · show st.next_handle + 2 = 2 * (msgs ++ [m]).length
    rw [hh, List.length_append]; simp; omega
  · intro hbs ho
    unfold OwnInv at ho ⊢
    show (st.freed ++ owned (st.queue.set shard (st.queue.getD shard [] ++
      enqueue_block cfg m.D m.I (st.next_handle + 1) st.next_handle)).flatten).Perm
        (List.range (st.next_handle + 2))
    have hlen : shard < st.queue.length := by rw [hq, queue_of_length]; exact hs
    have p1 := owned_perm (flatten_set_append st.queue shard
      (enqueue_block cfg m.D m.I (st.next_handle + 1) st.next_handle) hlen)
    rw [owned_append, owned_enqueue_block cfg _ _ _ _ hbs] at p1
    have p2 : (st.freed ++ (owned st.queue.flatten ++ [st.next_handle + 1, st.next_handle])).Perm
        (List.range (st.next_handle + 2)) := by
      have e : List.range (st.next_handle + 2) =
          List.range st.next_handle ++ [st.next_handle, st.next_handle + 1] := by
        rw [List.range_succ, List.range_succ, List.append_assoc]; rfl
      rw [e, ← List.append_assoc]
      exact List.Perm.append ho (List.Perm.swap _ _ _)
    exact (List.Perm.append_left _ p1).trans p2

/-- One iteration of the receive loop keeps the invariant and ends with some queue
empty. -/
theorem aggregator_step_inv {α : Type} [LinearOrder α] (fltMax : α) (cfg : Config)
    (nshards : Nat) (msgs : List (Msg α)) (st st1 : AggState α) (m : Msg α)
    (h : AggInv cfg nshards msgs st)
    (hstep : aggregator_step fltMax cfg nshards st m = some st1) :
    AggInv cfg nshards (msgs ++ [m]) st1 ∧ has_empty st1.queue nshards = true ∧
    st1.next_handle = st.next_handle + 2 ∧
    (1 ≤ cfg.block_size → OwnInv st → OwnInv st1) := by
  unfold aggregator_step at hstep
  simp only [] at hstep
  split at hstep
  · simp at hstep
  · split at hstep
    · simp at hstep
    · rename_i h2 hlt
      have hsrc : m.source = (m.source - 2) + 2 := by omega
      obtain ⟨hinv, hown⟩ := enqueue_inv cfg nshards msgs st m
        (st.remaining_queries_per_shard.set (m.source - 2)
          (st.remaining_queries_per_shard.getD (m.source - 2) 0 - (cfg.block_size : Int)))
        (m.source - 2) hsrc (by omega) h
      obtain ⟨r1, r2, r3, r4⟩ := drain_inv fltMax cfg nshards (msgs ++ [m]) _ _ st1 hinv hstep
      exact ⟨r1, r2, r3, fun hbs ho => r4 (hown hbs ho)⟩

theorem init_inv {α : Type} (cfg : Config) (nshards : Nat) :
    AggInv cfg nshards ([] : List (Msg α)) (aggregator_init α cfg nshards) ∧
    OwnInv (aggregator_init α cfg nshards) := by
  refine ⟨⟨?_, ?_, ?_, ?_, ?_, ?_, ?_⟩, ?_⟩
  · simp only [aggregator_init, queue_of, enqueued, enqueued_from, List.drop_nil]
    apply List.ext_getElem?
    intro j
    by_cases hj : j < nshards
    · simp [List.getElem?_replicate, hj, List.getElem?_range hj]
    · simp [List.getElem?_replicate, hj]
  · intro s _; simp [aggregator_init]
  · simp [aggregator_init]
  · simp [aggregator_init]
  · simp [aggregator_init, owned]
  · simp [aggregator_init]
  · simp [aggregator_init]
  · simp [OwnInv, aggregator_init, owned]

theorem aggregator_steps_inv {α : Type} [LinearOrder α] (fltMax : α) (cfg : Config)
    (nshards : Nat) (msgs : List (Msg α)) (st : AggState α)
    (hrun : aggregator_steps fltMax cfg nshards (aggregator_init α cfg nshards) msgs
      = some st) :
    AggInv cfg nshards msgs st ∧ (msgs ≠ [] → has_empty st.queue nshards = true) ∧
    (1 ≤ cfg.block_size → OwnInv st) := by
  induction msgs using List.reverseRecOn generalizing st with
  | nil =>
    simp only [aggregator_steps, List.foldlM_nil, Option.pure_def, Option.some.injEq] at hrun
    subst hrun
    exact ⟨(init_inv cfg nshards).1, fun h => absurd rfl h, fun _ => (init_inv cfg nshards).2⟩
  | append_singleton l m ih =>
    unfold aggregator_steps at hrun
    rw [List.foldlM_append] at hrun
    cases hl : List.foldlM (aggregator_step fltMax cfg nshards)
        (aggregator_init α cfg nshards) l with
    | none => rw [hl] at hrun; simp at hrun
    | some sa =>
      rw [hl] at hrun
      simp only [Option.bind_eq_bind, Option.some_bind, List.foldlM_cons, List.foldlM_nil,
        Option.pure_def, Option.bind_some] at hrun
      obtain ⟨i1, -, i3⟩ := ih sa hl
      obtain ⟨r1, r2, -, r4⟩ := aggregator_step_inv fltMax cfg nshards l sa st m i1 hrun
      exact ⟨r1, fun _ => r2, fun hbs => r4 hbs (i3 hbs)⟩

/-! ## C2 : gating of the merge on all shards -/

/-- C2: after any sequence of iterations of the aggregator's receive loop, one per
received block and in any shard order, the number `qn` of merged queries is at most the
number of PartialResults each shard has enqueued (`block_size` per block received from
it) and, once a block has been received, equals that number for some shard, so it is the
minimum over the shards; the `q`-th merged query has consumed, for every shard, the
`q`-th PartialResult that shard enqueued; and while some shard has delivered no block,
`qn` is 0. -/
theorem aggregator_gating {α : Type} [LinearOrder α] (fltMax : α) (cfg : Config)
    (nshards : Nat) (msgs : List (Msg α)) (st : AggState α)
    (hrun : aggregator_steps fltMax cfg nshards (aggregator_init α cfg nshards) msgs
      = some st) :
    (∀ s, s < nshards →
      (enqueued cfg s msgs).length =
        cfg.block_size * (msgs.filter fun m => m.source = s + 2).length) ∧
    (∀ s, s < nshards → st.qn ≤ (enqueued cfg s msgs).length) ∧
    (msgs ≠ [] → ∃ s, s < nshards ∧ st.qn = (enqueued cfg s msgs).length) ∧
    st.merged.length = st.qn ∧
    (∀ q s, q < st.qn → s < nshards →
      ∃ row r, st.merged[q]? = some row ∧ row.length = nshards ∧ row[s]? = some r ∧
        (enqueued cfg s msgs)[q]? = some r) ∧
    (∀ s, s < nshards → (∀ m ∈ msgs, m.source ≠ s + 2) → st.qn = 0) := by
  obtain ⟨⟨hq, hle, hm, -, -, -, -⟩, hemp, -⟩ :=
    aggregator_steps_inv fltMax cfg nshards msgs st hrun
  refine ⟨fun s _ => enqueued_length cfg s msgs, hle, ?_, ?_, ?_, ?_⟩
  · intro hne
    have he := hemp hne
    rw [hq] at he
    obtain ⟨s, hs, hlen⟩ := has_empty_true_queue_of cfg nshards msgs st.qn he
    exact ⟨s, hs, Nat.le_antisymm (hle s hs) hlen⟩
  · rw [hm]; simp
  · intro q s hq1 hs
    have hlt : q < (enqueued cfg s msgs).length := lt_of_lt_of_le hq1 (hle s hs)
    refine ⟨row_of cfg nshards msgs q, (enqueued cfg s msgs)[q], ?_, ?_, ?_, ?_⟩
    · rw [hm, List.getElem?_map, List.getElem?_range hq1]; rfl
    · simp [row_of]
    · simp only [row_of, List.getElem?_map, List.getElem?_range hs, Option.map_some',
        List.getD_eq_getElem?_getD, List.getElem?_eq_getElem hlt, Option.getD_some]
    · exact List.getElem?_eq_getElem hlt
  · intro s hs hnone
    have h1 := hle s hs
    rw [enqueued_length] at h1
    have h2 : (msgs.filter fun m => decide (m.source = s + 2)) = [] := by
      rw [List.filter_eq_nil_iff]
      intro m hm1
      simpa using hnone m hm1
    rw [h2] at h1
    simpa using h1

theorem aggregator_gating_witness :
    aggregator_steps (100 : Int) ⟨1, 1, 2, 1⟩ 2 (aggregator_init Int ⟨1, 1, 2, 1⟩ 2)
        [⟨2, [10], [1]⟩, ⟨2, [11], [2]⟩, ⟨3, [20], [3]⟩] =
      some ⟨[[⟨[2], [11], true, 3, 2⟩], []], [0, 1], 1, 1, [10, 0], 6, [1, 0, 5, 4],
        [[⟨[1], [10], true, 1, 0⟩, ⟨[3], [20], true, 5, 4⟩]]⟩ ∧
    ∀ s, s < 2 →
      (1 : Nat) ≤ (enqueued ⟨1, 1, 2, 1⟩ s
        ([⟨2, [10], [1]⟩, ⟨2, [11], [2]⟩, ⟨3, [20], [3]⟩] : List (Msg Int))).length :=
  ⟨by decide,
    (aggregator_gating (100 : Int) ⟨1, 1, 2, 1⟩ 2
      [⟨2, [10], [1]⟩, ⟨2, [11], [2]⟩, ⟨3, [20], [3]⟩]
      ⟨[[⟨[2], [11], true, 3, 2⟩], []], [0, 1], 1, 1, [10, 0], 6, [1, 0, 5, 4],
        [[⟨[1], [10], true, 1, 0⟩, ⟨[3], [20], true, 5, 4⟩]]⟩ (by decide)).2.1⟩

/-! ## The aggregator: a full run -/

theorem enqueue_block_ok {α : Type} [LinearOrder α] (fltMax : α) (cfg : Config)
    (nshards : Nat) (m : Msg α) (hD hI : Nat) (hm : MsgOk fltMax cfg nshards m) :
    ∀ r ∈ enqueue_block cfg m.D m.I hD hI, PROk fltMax cfg.k r := by
  intro r hr
  obtain ⟨⟨hIl, hDl⟩, -, -, hlt⟩ := hm
  simp only [enqueue_block, List.mem_map, List.mem_range] at hr
  obtain ⟨q, hq, rfl⟩ := hr
  have hle : cfg.k * q + cfg.k ≤ cfg.k * cfg.block_size := by
    have := Nat.mul_le_mul_left cfg.k (Nat.succ_le_of_lt hq)
    rw [Nat.mul_succ] at this
    exact this
  refine ⟨?_, ?_, ?_⟩
  · simp only [List.length_drop, hDl]; omega
  · simp only [List.length_drop, hIl]; omega
  · intro d hd
    exact hlt d (List.mem_of_mem_drop hd)

theorem enqueued_from_ok {α : Type} [LinearOrder α] (fltMax : α) (cfg : Config)
    (nshards s h : Nat) (msgs : List (Msg α))
    (hm : ∀ m ∈ msgs, MsgOk fltMax cfg nshards m) :
    ∀ r ∈ enqueued_from cfg s h msgs, PROk fltMax cfg.k r := by
  induction msgs generalizing h with
  | nil => intro r hr; simp [enqueued_from] at hr
  | cons a l ih =>
    intro r hr
    simp only [enqueued_from, List.mem_append] at hr
    rcases hr with hr | hr
    · split at hr
      · exact enqueue_block_ok fltMax cfg nshards a _ _ (hm a (List.mem_cons_self _ _)) r hr
      · simp at hr
    · exact ih (h + 2) (fun m hm1 => hm m (List.mem_cons_of_mem _ hm1)) r hr

theorem row_of_input {α : Type} [LinearOrder α] (fltMax : α) (cfg : Config)
    (nshards : Nat) (msgs : List (Msg α)) (q : Nat)
    (hm : ∀ m ∈ msgs, MsgOk fltMax cfg nshards m)
    (hq : ∀ s, s < nshards → q < (enqueued cfg s msgs).length) :
    MergeInput fltMax (row_of cfg nshards msgs q) nshards cfg.k := by
  refine ⟨by simp [row_of], ?_⟩
  intro r hr
  simp only [row_of, List.mem_map, List.mem_range] at hr
  obtain ⟨s, hs, rfl⟩ := hr
  have hlt := hq s hs
  have hmem : (enqueued cfg s msgs).getD q nilPR ∈ enqueued cfg s msgs := by
    rw [List.getD_eq_getElem?_getD, List.getElem?_eq_getElem hlt]
    exact List.getElem_mem _
  obtain ⟨h1, h2, h3⟩ := enqueued_from_ok fltMax cfg nshards s 0 msgs hm _ hmem
  exact ⟨h1, h2, fun j _ d hd => h3 d (List.getElem?_mem hd)⟩

theorem drain_total {α : Type} [LinearOrder α] (fltMax : α) (cfg : Config) (nshards : Nat)
    (msgs : List (Msg α)) (hn : 1 ≤ nshards) (htot : 0 < cfg.total)
    (hm : ∀ m ∈ msgs, MsgOk fltMax cfg nshards m) (fuel : Nat) (st : AggState α)
    (h : AggInv cfg nshards msgs st) (hfuel : queued st.queue < fuel) :
    ∃ st1, drain fltMax cfg nshards fuel st = some st1 := by
  induction fuel generalizing st with
  | zero => omega
  | succ fuel ih =>
    unfold drain
    by_cases he : has_empty st.queue nshards = true
    · rw [if_pos he]; exact ⟨st, rfl⟩
    · rw [if_neg he, if_neg (by omega)]
      have he1 : has_empty st.queue nshards = false := by simpa using he
      have hq := h.1
      rw [hq, has_empty_queue_of] at he1
      have hnon : ∀ q ∈ st.queue, q ≠ [] := by
        rw [hq]; exact queue_of_nonempty cfg nshards msgs st.qn he1
      have hlen : st.queue.length = nshards := by rw [hq]; exact queue_of_length _ _ _ _
      rw [aggregate_query_eq fltMax st.queue nshards cfg.k hlen hnon]
      have hrow : (st.queue.map fun q => q.headD nilPR) = row_of cfg nshards msgs st.qn := by
        rw [hq, queue_of_head]
      obtain ⟨ids, hids, hidl⟩ := merge_results_total fltMax
        (st.queue.map fun q => q.headD nilPR) nshards cfg.k hn
        (by rw [hrow]; exact row_of_input fltMax cfg nshards msgs st.qn hm he1)
      rw [hids]
      simp only []
      have hoff : (st.qn % cfg.total) * cfg.k + ids.length ≤ st.answers.length := by
        rw [hidl, h.2.2.2.2.2.2]
        exact mul_succ_le_of_lt _ _ _ (Nat.mod_lt _ htot)
      have hw : write_at st.answers ((st.qn % cfg.total) * cfg.k) ids =
          some (st.answers.take ((st.qn % cfg.total) * cfg.k) ++ ids ++
            st.answers.drop ((st.qn % cfg.total) * cfg.k + ids.length)) := by
        unfold write_at; rw [if_pos hoff]
      rw [hw]
      simp only []
      obtain ⟨hinv, -⟩ := drain_turn cfg nshards msgs st ids _ h he1 hw
      apply ih _ hinv
      have := queued_tail st.queue hnon
      show queued (st.queue.map List.tail) < fuel
      omega

theorem aggregator_step_total {α : Type} [LinearOrder α] (fltMax : α) (cfg : Config)
    (nshards : Nat) (msgs : List (Msg α)) (st : AggState α) (m : Msg α) (hn : 1 ≤ nshards)
    (htot : 0 < cfg.total) (hm : ∀ m ∈ msgs, MsgOk fltMax cfg nshards m)
    (hok : MsgOk fltMax cfg nshards m) (h : AggInv cfg nshards msgs st) :
    ∃ st1, aggregator_step fltMax cfg nshards st m = some st1 := by
  have h2 := hok.2.1
  have h3 := hok.2.2.1
  unfold aggregator_step
  simp only []
  rw [if_neg (by omega), if_neg (by omega)]
  have hsrc : m.source = (m.source - 2) + 2 := by omega
  obtain ⟨hinv, -⟩ := enqueue_inv cfg nshards msgs st m
    (st.remaining_queries_per_shard.set (m.source - 2)
      (st.remaining_queries_per_shard.getD (m.source - 2) 0 - (cfg.block_size : Int)))
    (m.source - 2) hsrc (by omega) h
  apply drain_total fltMax cfg nshards (msgs ++ [m]) hn htot _ _ _ hinv (Nat.lt_succ_self _)
  intro x hx
  rcases List.mem_append.mp hx with hx | hx
  · exact hm x hx
  · simp only [List.mem_singleton] at hx
    subst hx
    exact hok

theorem filter_length_lt {α : Type} (pre rest : List (Msg α)) (m : Msg α) (s : Nat)
    (hs : m.source = s + 2) :
    (pre.filter fun x => x.source = s + 2).length <
      ((pre ++ m :: rest).filter fun x => x.source = s + 2).length := by
  rw [List.filter_append, List.length_append, List.filter_cons]
  simp [hs]

/-- The receive loop on the rest of a message sequence in which every message comes
from a shard and every shard delivers `num_blocks` blocks: if it ends, it has received
every message and merged `total` queries. -/
theorem aggregator_loop_inv {α : Type} [LinearOrder α] (fltMax : α) (cfg : Config)
    (nshards : Nat) (hn : 1 ≤ nshards) (hbs : 1 ≤ cfg.block_size) (rest pre : List (Msg α))
    (st st1 : AggState α) (left : List (Msg α))
    (hsrc : ∀ m ∈ rest, 2 ≤ m.source ∧ m.source < nshards + 2)
    (hcount : ∀ s, s < nshards →
      ((pre ++ rest).filter fun m => m.source = s + 2).length = cfg.num_blocks)
    (h : AggInv cfg nshards pre st) (ho : OwnInv st)
    (hloop : aggregator_loop fltMax cfg nshards rest st = some (st1, left)) :
    left = [] ∧ AggInv cfg nshards (pre ++ rest) st1 ∧ OwnInv st1 ∧ st1.qn = cfg.total := by
  induction rest generalizing pre st with
  | nil =>
    unfold aggregator_loop at hloop
    split at hloop
    · simp at hloop
    · rename_i hg
      simp only [Option.some.injEq, Prod.mk.injEq] at hloop
      obtain ⟨rfl, rfl⟩ := hloop
      rw [List.append_nil] at hcount ⊢
      refine ⟨rfl, h, ho, ?_⟩
      have h1 := h.2.1 0 (by omega)
      rw [enqueued_length, hcount 0 (by omega), Nat.mul_comm] at h1
      have h2 := h.2.2.2.2.2.1
      unfold Config.total at h2 ⊢
      omega
  | cons m rest1 ih =>
    obtain ⟨hm2, hm3⟩ := hsrc m (List.mem_cons_self _ _)
    have hguard : 1 ≤ st.queries_remaining := by
      have hs : m.source = (m.source - 2) + 2 := by omega
      have hlt := filter_length_lt pre rest1 m (m.source - 2) hs
      rw [hcount (m.source - 2) (by omega)] at hlt
      have h1 := h.2.1 (m.source - 2) (by omega)
      rw [enqueued_length] at h1
      have h2 := h.2.2.2.2.2.1
      have h3 : cfg.block_size * ((pre.filter fun x => x.source = m.source - 2 + 2).length + 1)
          ≤ cfg.block_size * cfg.num_blocks := Nat.mul_le_mul_left _ hlt
      rw [Nat.mul_succ] at h3
      have h4 : cfg.total = cfg.block_size * cfg.num_blocks := by
        unfold Config.total; exact Nat.mul_comm _ _
      omega
    unfold aggregator_loop at hloop
    rw [if_pos hguard] at hloop
    cases hstep : aggregator_step fltMax cfg nshards st m with
    | none => rw [hstep] at hloop; simp at hloop
    | some sa =>
      rw [hstep] at hloop
      simp only [] at hloop
      obtain ⟨r1, -, -, r4⟩ := aggregator_step_inv fltMax cfg nshards pre st sa m h hstep
      have := ih (pre ++ [m]) sa (fun x hx => hsrc x (List.mem_cons_of_mem _ hx))
        (by simpa using hcount) r1 (r4 hbs ho) hloop
      simpa using this

/-- The receive loop on messages the merge can work on, every shard delivering
`num_blocks` blocks, ends. -/
theorem aggregator_loop_total {α : Type} [LinearOrder α] (fltMax : α) (cfg : Config)
    (nshards : Nat) (hn : 1 ≤ nshards) (rest pre : List (Msg α)) (st : AggState α)
    (hpre : ∀ m ∈ pre, MsgOk fltMax cfg nshards m)
    (hrest : ∀ m ∈ rest, MsgOk fltMax cfg nshards m)
    (hcount : ∀ s, s < nshards →
      ((pre ++ rest).filter fun m => m.source = s + 2).length = cfg.num_blocks)
    (hemp : pre ≠ [] → has_empty st.queue nshards = true)
    (h : AggInv cfg nshards pre st) :
    ∃ r, aggregator_loop fltMax cfg nshards rest st = some r := by
  induction rest generalizing pre st with
  | nil =>
    unfold aggregator_loop
    have hg : ¬ 1 ≤ st.queries_remaining := by
      have h2 := h.2.2.2.2.2.1
      rw [List.append_nil] at hcount
      by_cases hp : pre = []
      · subst hp
        have := hcount 0 (by omega)
        simp only [List.filter_nil, List.length_nil] at this
        have h4 : cfg.total = 0 := by unfold Config.total; rw [← this]; simp
        omega
      · have he := hemp hp
        rw [h.1] at he
        obtain ⟨s, hs, hlen⟩ := has_empty_true_queue_of cfg nshards pre st.qn he
        rw [enqueued_length, hcount s hs] at hlen
        have h4 : cfg.total = cfg.block_size * cfg.num_blocks := by
          unfold Config.total; exact Nat.mul_comm _ _
        omega
    rw [if_neg hg]
    exact ⟨_, rfl⟩
  | cons m rest1 ih =>
    unfold aggregator_loop
    by_cases hg : 1 ≤ st.queries_remaining
    · rw [if_pos hg]
      have htot : 0 < cfg.total := by
        have := h.2.2.2.2.2.1
        omega
      obtain ⟨sa, hsa⟩ := aggregator_step_total fltMax cfg nshards pre st m hn htot hpre
        (hrest m (List.mem_cons_self _ _)) h
      rw [hsa]
      simp only []
      obtain ⟨r1, r2, -, -⟩ := aggregator_step_inv fltMax cfg nshards pre st sa m h hsa
      apply ih (pre ++ [m]) sa
      · intro x hx
        rcases List.mem_append.mp hx with hx | hx
        · exact hpre x hx
        · simp only [List.mem_singleton] at hx
          subst hx
          exact hrest x (List.mem_cons_self _ _)
      · exact fun x hx => hrest x (List.mem_cons_of_mem _ hx)
      · simpa using hcount
      · exact fun _ => r2
      · exact r1
    · rw [if_neg hg]
      exact ⟨_, rfl⟩

theorem aggregate_query_deleted {α : Type} [LinearOrder α] (fltMax : α)
    (queue queue1 : List (List (PartialResult α))) (nshards k : Nat)
    (results : List (PartialResult α)) (ids : List Int) (deleted : List Nat)
    (h : aggregate_query fltMax queue nshards k = some (queue1, results, ids, deleted)) :
    deleted = owned results := by
  unfold aggregate_query at h
  split at h
  · simp at h
  · split at h
    · simp at h
    · simp only [Option.some.injEq, Prod.mk.injEq] at h
      obtain ⟨-, rfl, -, rfl⟩ := h
      rfl

theorem mem_owned {α : Type} (l : List (PartialResult α)) (h : Nat) (hh : h ∈ owned l) :
    ∃ r ∈ l, r.own_fields = true ∧ (h = r.base_dists ∨ h = r.base_ids) := by
  simp only [owned, List.mem_flatten, List.mem_map] at hh
  obtain ⟨fl, ⟨r, hr, rfl⟩, hmem⟩ := hh
  unfold frees_of at hmem
  split at hmem
  · rename_i hown
    simp only [List.mem_cons, List.mem_singleton, List.not_mem_nil, or_false] at hmem
    exact ⟨r, hr, hown, hmem⟩
  · simp at hmem

theorem queue_of_drained {α : Type} (cfg : Config) (nshards : Nat) (msgs : List (Msg α))
    (qn : Nat) (h : ∀ s, s < nshards → (enqueued cfg s msgs).length ≤ qn) :
    (queue_of cfg nshards msgs qn).flatten = [] := by
  rw [List.flatten_eq_nil_iff]
  intro l hl
  simp only [queue_of, List.mem_map, List.mem_range] at hl
  obtain ⟨s, hs, rfl⟩ := hl
  exact List.drop_eq_nil_of_le (h s hs)

/-! ## C3 : ownership of the received blocks -/

/-- C3: for `block_size >= 1` and `nshards >= 1`: (1) of the `block_size` PartialResults
enqueued for one received block exactly one has `own_fields` set, the last one, and all
carry the block's two base pointers; (2) the handles `aggregate_query` deletes are the
base pointers of the owning elements of the `results` it has dequeued, and in a run
every deleted handle is the base pointer of an owning PartialResult of a merged row;
(3) when every message comes from a shard and every shard delivers exactly `num_blocks`
blocks, in any interleaving, the receive loop, if it ends, has received every message
and the handles deleted are, each exactly once, the handles allocated (two arrays per
received block), and the loop does end when the merge is defined on the data (all
distances below the initial `bestDist`). -/
theorem block_ownership {α : Type} [LinearOrder α] (fltMax : α) (cfg : Config)
    (nshards : Nat) (hbs : 1 ≤ cfg.block_size) (hn : 1 ≤ nshards) :
    (∀ (D : List α) (I : List Int) (hD hI : Nat),
      (enqueue_block cfg D I hD hI).length = cfg.block_size ∧
      ((enqueue_block cfg D I hD hI).filter fun r => r.own_fields).length = 1 ∧
      ∀ q r, (enqueue_block cfg D I hD hI)[q]? = some r →
        (r.own_fields = true ↔ q + 1 = cfg.block_size) ∧
        r.base_dists = hD ∧ r.base_ids = hI) ∧
    (∀ queue queue1 k results ids deleted,
      aggregate_query fltMax queue nshards k = some (queue1, results, ids, deleted) →
      deleted = (results.map frees_of).flatten ∧
      ∀ h ∈ deleted, ∃ r ∈ results, r.own_fields = true ∧
        (h = r.base_dists ∨ h = r.base_ids)) ∧
    (∀ (msgs : List (Msg α)) st,
      aggregator_steps fltMax cfg nshards (aggregator_init α cfg nshards) msgs = some st →
      ∀ h ∈ st.freed, ∃ row ∈ st.merged, ∃ r ∈ row, r.own_fields = true ∧
        (h = r.base_dists ∨ h = r.base_ids)) ∧
    (∀ (msgs : List (Msg α)) st left,
      (∀ m ∈ msgs, 2 ≤ m.source ∧ m.source < nshards + 2) →
      (∀ s, s < nshards →
        (msgs.filter fun m => m.source = s + 2).length = cfg.num_blocks) →
      aggregator_loop fltMax cfg nshards msgs (aggregator_init α cfg nshards)
        = some (st, left) →
      left = [] ∧ st.qn = cfg.total ∧ st.next_handle = 2 * msgs.length ∧
      st.freed.Perm (List.range st.next_handle) ∧ st.freed.Nodup ∧
      st.freed.length = st.next_handle) ∧
    (∀ (msgs : List (Msg α)),
      (∀ m ∈ msgs, MsgOk fltMax cfg nshards m) →
      (∀ s, s < nshards →
        (msgs.filter fun m => m.source = s + 2).length = cfg.num_blocks) →
      ∃ st, aggregator_loop fltMax cfg nshards msgs (aggregator_init α cfg nshards)
        = some (st, [])) := by
  have part4 : ∀ (msgs : List (Msg α)) st left,
      (∀ m ∈ msgs, 2 ≤ m.source ∧ m.source < nshards + 2) →
      (∀ s, s < nshards →
        (msgs.filter fun m => m.source = s + 2).length = cfg.num_blocks) →
      aggregator_loop fltMax cfg nshards msgs (aggregator_init α cfg nshards)
        = some (st, left) →
      left = [] ∧ st.qn = cfg.total ∧ st.next_handle = 2 * msgs.length ∧
      st.freed.Perm (List.range st.next_handle) ∧ st.freed.Nodup ∧
      st.freed.length = st.next_handle := by
    intro msgs st left hsrc hcount hloop
    obtain ⟨h1, hinv, hown, hqn⟩ := aggregator_loop_inv fltMax cfg nshards hn hbs msgs []
      (aggregator_init α cfg nshards) st left hsrc (by simpa using hcount)
      (init_inv cfg nshards).1 (init_inv cfg nshards).2 hloop
    rw [List.nil_append] at hinv
    have hflat : st.queue.flatten = [] := by
      rw [hinv.1]
      apply queue_of_drained
      intro s hs
      rw [enqueued_length, hcount s hs, hqn, Nat.mul_comm]
      exact le_refl _
    have hperm : st.freed.Perm (List.range st.next_handle) := by
      have := hown
      unfold OwnInv at this
      rw [hflat] at this
      simpa [owned] using this
    refine ⟨h1, hqn, hinv.2.2.2.1, hperm, ?_, ?_⟩
    · exact hperm.nodup_iff.mpr (List.nodup_range _)
    · rw [hperm.length_eq, List.length_range]
  refine ⟨?_, ?_, ?_, part4, ?_⟩
  · intro D I hD hI
    refine ⟨enqueue_block_length cfg D I hD hI, ?_, ?_⟩
    · obtain ⟨n, hn1⟩ : ∃ n, cfg.block_size = n + 1 := ⟨cfg.block_size - 1, by omega⟩
      unfold enqueue_block
      rw [hn1, List.range_succ, List.map_append, List.filter_append, List.length_append]
      have h0 : ((List.range n).map fun q => (⟨D.drop (cfg.k * q), I.drop (cfg.k * q),
          decide ((q : Int) = ((n + 1 : Nat) : Int) - 1), hD, hI⟩ : PartialResult α)).filter
            (fun r => r.own_fields) = [] := by
        rw [List.filter_eq_nil_iff]
        intro r hr
        simp only [List.mem_map, List.mem_range] at hr
        obtain ⟨q, hq, rfl⟩ := hr
        simp only [decide_eq_true_eq]
        push_cast
        omega
      rw [h0]
      simp
    · intro q r hr
      unfold enqueue_block at hr
      rw [List.getElem?_map] at hr
      by_cases hq : q < cfg.block_size
      · rw [List.getElem?_range hq] at hr
        simp only [Option.map_some', Option.some.injEq] at hr
        subst hr
        simp only [decide_eq_true_eq, and_self, and_true]
        constructor
        · intro h; omega
        · intro h; omega
      · rw [List.getElem?_eq_none (by simpa using hq)] at hr
        simp at hr
  · intro queue queue1 k results ids deleted h
    have hd := aggregate_query_deleted fltMax queue queue1 nshards k results ids deleted h
    refine ⟨hd, ?_⟩
    intro x hx
    rw [hd] at hx
    exact mem_owned results x hx
  · intro msgs st hrun x hx
    obtain ⟨hinv, -, -⟩ := aggregator_steps_inv fltMax cfg nshards msgs st hrun
    rw [hinv.2.2.2.2.1] at hx
    obtain ⟨r, hr, hown, hbase⟩ := mem_owned _ x hx
    obtain ⟨row, hrow, hrr⟩ := List.mem_flatten.mp hr
    exact ⟨row, hrow, r, hrr, hown, hbase⟩
  · intro msgs hok hcount
    obtain ⟨⟨st, left⟩, hr⟩ := aggregator_loop_total fltMax cfg nshards hn msgs []
      (aggregator_init α cfg nshards) (by simp) hok (by simpa using hcount)
      (fun h => absurd rfl h) (init_inv cfg nshards).1
    have hleft := (part4 msgs st left (fun m hm => ⟨(hok m hm).2.1, (hok m hm).2.2.1⟩)
      hcount hr).1
    subst hleft
    exact ⟨st, hr⟩

theorem block_ownership_witness :
    aggregator_loop (100 : Int) ⟨1, 1, 1, 1⟩ 2 [⟨2, [10], [1]⟩, ⟨3, [20], [2]⟩]
        (aggregator_init Int ⟨1, 1, 1, 1⟩ 2) =
      some (⟨[[], []], [0, 0], 0, 1, [10], 4, [1, 0, 3, 2],
        [[⟨[1], [10], true, 1, 0⟩, ⟨[2], [20], true, 3, 2⟩]]⟩, []) ∧
    ([1, 0, 3, 2] : List Nat).Perm (List.range 4) :=
  ⟨by decide,
    ((block_ownership (100 : Int) ⟨1, 1, 1, 1⟩ 2 (by decide) (by decide)).2.2.2.1
      [⟨2, [10], [1]⟩, ⟨3, [20], [2]⟩]
      ⟨[[], []], [0, 0], 0, 1, [10], 4, [1, 0, 3, 2],
        [[⟨[1], [10], true, 1, 0⟩, ⟨[2], [20], true, 3, 2⟩]]⟩ []
      (by decide) (by decide) (by decide)).2.2.2.1⟩

/-! ## The merge: functional correctness below the initial `bestDist` -/

theorem sort_extract_min {α : Type} [LinearOrder α] (A C : List (α × Int)) (h : α × Int)
    (hA : ∀ a ∈ A, h.1 < a.1) (hC : ∀ c ∈ C, h.1 ≤ c.1) :
    (A ++ h :: C).insertionSort (fun a b => a.1 ≤ b.1) =
      h :: (A ++ C).insertionSort (fun a b => a.1 ≤ b.1) := by
  induction A with
  | nil =>
    simp only [List.nil_append]
    exact List.insertionSort_cons _ hC
  | cons a A ih =>
    have ih1 := ih (fun x hx => hA x (List.mem_cons_of_mem _ hx))
    have ha : ¬ a.1 ≤ h.1 := not_le.mpr (hA a (List.mem_cons_self _ _))
    have e1 : (a :: A ++ h :: C).insertionSort (fun a b => a.1 ≤ b.1) =
        List.orderedInsert (fun a b => a.1 ≤ b.1) a
          ((A ++ h :: C).insertionSort (fun a b => a.1 ≤ b.1)) := rfl
    have e2 : (a :: A ++ C).insertionSort (fun a b => a.1 ≤ b.1) =
        List.orderedInsert (fun a b => a.1 ≤ b.1) a
          ((A ++ C).insertionSort (fun a b => a.1 ≤ b.1)) := rfl
    rw [e1, e2, ih1]
    simp only [List.orderedInsert, if_neg ha]

theorem flatten_split {β : Type} (L : List (List β)) (s : Nat) (x : List β)
    (h : L[s]? = some x) :
    L.flatten = (L.take s).flatten ++ (x ++ (L.drop (s + 1)).flatten) := by
  obtain ⟨hs, rfl⟩ := List.getElem?_eq_some.mp h
  have e : L = L.take s ++ L[s] :: L.drop (s + 1) := by
    rw [← List.drop_eq_getElem_cons hs, List.take_append_drop]
  conv_lhs => rw [e]
  rw [List.flatten_append, List.flatten_cons]

theorem flatten_set_split {β : Type} (L : List (List β)) (s : Nat) (y : List β)
    (hs : s < L.length) :
    (L.set s y).flatten = (L.take s).flatten ++ (y ++ (L.drop (s + 1)).flatten) := by
  have h1 : (L.set s y)[s]? = some y := by simp [hs]
  rw [flatten_split _ s y h1, List.set_take,
    List.set_eq_of_length_le (by rw [List.length_take]; omega),
    List.drop_set_of_lt y L (Nat.lt_succ_self s)]

theorem cur_dist_ofPairs {α : Type} (fltMax : α) (lists : List (List (α × Int)))
    (counter : List Nat) (s : Nat) :
    cur_dist fltMax (lists.map ofPairs) counter s = (cur_pair fltMax lists counter s).1 := by
  unfold cur_dist cur_pair
  simp only [List.getD_eq_getElem?_getD, List.getElem?_map]
  cases h1 : lists[s]? with
  | none => simp
  | some l =>
    simp only [Option.map_some', Option.getD_some, ofPairs, List.getElem?_map]
    cases h2 : l[counter[s]?.getD 0]? <;> simp

theorem cur_id_ofPairs {α : Type} (fltMax : α) (lists : List (List (α × Int)))
    (counter : List Nat) (s : Nat) :
    cur_id (lists.map ofPairs) counter s = (cur_pair fltMax lists counter s).2 := by
  unfold cur_id cur_pair
  simp only [List.getD_eq_getElem?_getD, List.getElem?_map]
  cases h1 : lists[s]? with
  | none => simp
  | some l =>
    simp only [Option.map_some', Option.getD_some, ofPairs, List.getElem?_map]
    cases h2 : l[counter[s]?.getD 0]? <;> simp

theorem rem_lists_get {α : Type} (lists : List (List (α × Int))) (nshards : Nat)
    (counter : List Nat) (s : Nat) (hs : s < nshards) :
    (rem_lists lists nshards counter)[s]? =
      some ((lists.getD s []).drop (counter.getD s 0)) := by
  simp [rem_lists, List.getElem?_range hs]

theorem drop_cur_pair {α : Type} (fltMax : α) (lists : List (List (α × Int)))
    (counter : List Nat) (s : Nat) (h : counter.getD s 0 < (lists.getD s []).length) :
    (lists.getD s []).drop (counter.getD s 0) =
      cur_pair fltMax lists counter s :: (lists.getD s []).drop (counter.getD s 0 + 1) := by
  rw [List.drop_eq_getElem_cons h]
  congr 1
  unfold cur_pair
  rw [List.getD_eq_getElem?_getD (lists.getD s []), List.getElem?_eq_getElem h]
  rfl

theorem rem_lists_set {α : Type} (lists : List (List (α × Int))) (nshards : Nat)
    (counter : List Nat) (s : Nat) (hs : s < nshards) (hc : s < counter.length) :
    rem_lists lists nshards (counter.set s (counter.getD s 0 + 1)) =
      (rem_lists lists nshards counter).set s
        ((lists.getD s []).drop (counter.getD s 0 + 1)) := by
  apply List.ext_getElem?
  intro j
  rw [List.getElem?_set]
  by_cases hj : s = j
  · subst hj
    rw [if_pos rfl, if_pos (by simp [rem_lists]; exact hs), rem_lists_get _ _ _ _ hs]
    simp [List.getD_eq_getElem?_getD, hc]
  · rw [if_neg hj]
    by_cases hjn : j < nshards
    · rw [rem_lists_get _ _ _ _ hjn, rem_lists_get _ _ _ _ hjn]
      simp [List.getD_eq_getElem?_getD, List.getElem?_set_ne hj]
    · rw [List.getElem?_eq_none (by simp [rem_lists]; omega),
        List.getElem?_eq_none (by simp [rem_lists]; omega)]

theorem head_le_of_sorted {α : Type} [LinearOrder α] (x : α × Int) (r : List (α × Int))
    (h : (x :: r).Pairwise (fun a b => a.1 ≤ b.1)) : ∀ a ∈ x :: r, x.1 ≤ a.1 := by
  intro a ha
  rcases List.mem_cons.mp ha with rfl | ha
  · exact le_refl _
  · exact (List.pairwise_cons.mp h).1 a ha

theorem merge_input_ofPairs {α : Type} [LinearOrder α] (fltMax : α)
    (lists : List (List (α × Int))) (nshards k : Nat) (hlen : lists.length = nshards)
    (hk : ∀ l ∈ lists, k ≤ l.length)
    (hlt : ∀ l ∈ lists, ∀ p ∈ l.take k, p.1 < fltMax) :
    MergeInput fltMax (lists.map ofPairs) nshards k := by
  refine ⟨by simp [hlen], ?_⟩
  intro r hr
  obtain ⟨l, hl, rfl⟩ := List.mem_map.mp hr
  refine ⟨by simp [ofPairs, hk l hl], by simp [ofPairs, hk l hl], ?_⟩
  intro j hj d hd
  simp only [ofPairs, List.getElem?_map, Option.map_eq_some'] at hd
  obtain ⟨p, hp, rfl⟩ := hd
  apply hlt l hl p
  rw [List.mem_iff_getElem?]
  exact ⟨j, by rw [List.getElem?_take_of_lt hj]; exact hp⟩

theorem cursor_in_list {α : Type} (lists : List (List (α × Int))) (nshards k : Nat)
    (counter : List Nat) (hlen : lists.length = nshards) (hk : ∀ l ∈ lists, k ≤ l.length)
    (hcl : counter.length = nshards) (hsum : counter.sum < k) (t : Nat) (ht : t < nshards) :
    counter.getD t 0 < (lists.getD t []).length := by
  have h1 : counter[t]? = some counter[t] := List.getElem?_eq_getElem (by omega)
  have h2 : lists[t]? = some lists[t] := List.getElem?_eq_getElem (by omega)
  have h3 := getElem?_le_sum counter t _ h1
  have h4 := hk lists[t] (List.getElem_mem _)
  rw [List.getD_eq_getElem?_getD, List.getD_eq_getElem?_getD, h1, h2]
  simp only [Option.getD_some]
  omega

theorem cur_pair_le {α : Type} [LinearOrder α] (fltMax : α)
    (lists : List (List (α × Int))) (counter : List Nat) (t : Nat)
    (hsorted : ∀ l ∈ lists, l.Pairwise (fun a b => a.1 ≤ b.1))
    (hc : counter.getD t 0 < (lists.getD t []).length) :
    ∀ a ∈ (lists.getD t []).drop (counter.getD t 0),
      (cur_pair fltMax lists counter t).1 ≤ a.1 := by
  have hmem : lists.getD t [] ∈ lists := by
    have ht : t < lists.length := by
      by_contra hcon
      have hnone : lists[t]? = none := List.getElem?_eq_none (by omega)
      rw [List.getD_eq_getElem?_getD lists, hnone] at hc
      simp at hc
    rw [List.getD_eq_getElem?_getD, List.getElem?_eq_getElem ht]
    exact List.getElem_mem _
  have hs : ((lists.getD t []).drop (counter.getD t 0)).Pairwise (fun a b => a.1 ≤ b.1) :=
    (hsorted _ hmem).sublist (List.drop_sublist _ _)
  rw [drop_cur_pair fltMax lists counter t hc] at hs ⊢
  exact head_le_of_sorted _ _ hs

/-- The loop of `merge_results` appends, in order, the ids of the first `iters` elements
of the stable sort of what is left of the lists. -/
theorem merge_loop_stable {α : Type} [LinearOrder α] (fltMax : α)
    (lists : List (List (α × Int))) (nshards k : Nat) (hn : 1 ≤ nshards)
    (hlen : lists.length = nshards) (hk : ∀ l ∈ lists, k ≤ l.length)
    (hsorted : ∀ l ∈ lists, l.Pairwise (fun a b => a.1 ≤ b.1))
    (hlt : ∀ l ∈ lists, ∀ p ∈ l.take k, p.1 < fltMax)
    (iters : Nat) (counter : List Nat) (acc : List Int)
    (hcl : counter.length = nshards) (hsum : counter.sum + iters = k) :
    merge_loop fltMax (lists.map ofPairs) nshards k iters counter acc =
      some (acc ++
        (((rem_lists lists nshards counter).flatten.insertionSort
          (fun a b => a.1 ≤ b.1)).take iters).map Prod.snd) := by
  induction iters generalizing counter acc with
  | zero => simp [merge_loop]
  | succ iters ih =>
    have hin := merge_input_ofPairs fltMax lists nshards k hlen hk hlt
    obtain ⟨s, hs, hscan, hleft, hright⟩ :=
      scan_all_selects fltMax (lists.map ofPairs) counter nshards k hn hin hcl (by omega)
    have hcur := cursor_in_list lists nshards k counter hlen hk hcl (by omega)
    have hcs : counter[s]? = some (counter.getD s 0) := by
      rw [List.getD_eq_getElem?_getD, List.getElem?_eq_getElem (by omega)]; rfl
    have hL : (rem_lists lists nshards counter).length = nshards := by simp [rem_lists]
    have hget := rem_lists_get lists nshards counter s hs
    rw [drop_cur_pair fltMax lists counter s (hcur s hs)] at hget
    have hA : ∀ a ∈ ((rem_lists lists nshards counter).take s).flatten,
        (cur_pair fltMax lists counter s).1 < a.1 := by
      intro a ha
      obtain ⟨l, hl, hal⟩ := List.mem_flatten.mp ha
      obtain ⟨t, ht, rfl⟩ := List.mem_take_iff_getElem.mp hl
      have ht1 : t < s := by omega
      have ht2 : t < nshards := by omega
      have hgt := rem_lists_get lists nshards counter t ht2
      rw [List.getElem?_eq_getElem (by omega)] at hgt
      simp only [Option.some.injEq] at hgt
      rw [hgt] at hal
      have h1 := cur_pair_le fltMax lists counter t hsorted (hcur t ht2) a hal
      have h2 := hleft t ht1
      rw [cur_dist_ofPairs, cur_dist_ofPairs] at h2
      exact lt_of_lt_of_le h2 h1
    have hC : ∀ c ∈ (lists.getD s []).drop (counter.getD s 0 + 1) ++
        ((rem_lists lists nshards counter).drop (s + 1)).flatten,
        (cur_pair fltMax lists counter s).1 ≤ c.1 := by
      intro c hc
      rcases List.mem_append.mp hc with hc | hc
      · have h1 := cur_pair_le fltMax lists counter s hsorted (hcur s hs)
        rw [drop_cur_pair fltMax lists counter s (hcur s hs)] at h1
        exact h1 c (List.mem_cons_of_mem _ hc)
      · obtain ⟨l, hl, hcl1⟩ := List.mem_flatten.mp hc
        obtain ⟨i, hi, rfl⟩ := List.mem_drop_iff_getElem.mp hl
        have ht2 : s + 1 + i < nshards := by omega
        have hgt := rem_lists_get lists nshards counter (s + 1 + i) ht2
        rw [List.getElem?_eq_getElem (by omega)] at hgt
        simp only [Option.some.injEq] at hgt
        rw [hgt] at hcl1
        have h1 := cur_pair_le fltMax lists counter (s + 1 + i) hsorted (hcur _ ht2) c hcl1
        have h2 := hright (s + 1 + i) (by omega) ht2
        rw [cur_dist_ofPairs, cur_dist_ofPairs] at h2
        exact le_trans h2 h1
    have hsort := sort_extract_min _ _ _ hA hC
    have hflat := flatten_split _ s _ hget
    rw [List.cons_append] at hflat
    rw [← hflat] at hsort
    have hrem : (rem_lists lists nshards (counter.set s (counter.getD s 0 + 1))).flatten =
        ((rem_lists lists nshards counter).take s).flatten ++
          ((lists.getD s []).drop (counter.getD s 0 + 1) ++
            ((rem_lists lists nshards counter).drop (s + 1)).flatten) := by
      rw [rem_lists_set lists nshards counter s hs (by omega),
        flatten_set_split _ s _ (by omega)]
    have hih := ih (counter.set s (counter.getD s 0 + 1))
      (acc ++ [cur_id (lists.map ofPairs) counter s]) (by simp [hcl])
      (by rw [sum_set_succ counter s _ hcs]; omega)
    unfold merge_loop
    simp only [hscan, Int.toNat_ofNat, hcs]
    rw [if_neg (by omega), hih, hrem, hsort, cur_id_ofPairs fltMax]
    simp

/-- The merge is correct below the initial `bestDist`: for at least one shard, lists of
at least `k` pairs sorted ascending by distance and with their first `k` distances
strictly below `fltMax`, `merge_results` writes the ids of the first `k` elements of the
stable ascending merge of the lists taken in shard-index order. -/
theorem merge_results_stable_topk {α : Type} [LinearOrder α] (fltMax : α)
    (lists : List (List (α × Int))) (nshards k : Nat) (hn : 1 ≤ nshards)
    (hlen : lists.length = nshards) (hk : ∀ l ∈ lists, k ≤ l.length)
    (hsorted : ∀ l ∈ lists, l.Pairwise (fun a b => a.1 ≤ b.1))
    (hlt : ∀ l ∈ lists, ∀ p ∈ l.take k, p.1 < fltMax) :
    merge_results fltMax (lists.map ofPairs) nshards k = some (stable_topk lists k) := by
  have h := merge_loop_stable fltMax lists nshards k hn hlen hk hsorted hlt k
    (List.replicate nshards 0) [] (by simp) (by simp)
  have hrem : rem_lists lists nshards (List.replicate nshards 0) = lists := by
    apply List.ext_getElem?
    intro j
    by_cases hj : j < nshards
    · rw [rem_lists_get _ _ _ _ hj]
      simp [List.getD_eq_getElem?_getD, List.getElem?_replicate, hj,
        List.getElem?_eq_getElem (by omega : j < lists.length)]
    · rw [List.getElem?_eq_none (by simp [rem_lists]; omega),
        List.getElem?_eq_none (by omega)]
  unfold merge_results stable_topk
  rw [h, hrem]
  simp

/-! ## C11 : safety of every iteration of the merge -/

theorem merge_loop_eq_steps {α : Type} [LinearOrder α] (fltMax : α)
    (results : List (PartialResult α)) (nshards k iters topi : Nat) (counter : List Nat)
    (answers : List Int) :
    merge_loop fltMax results nshards k iters counter answers =
      (merge_steps fltMax results nshards k iters topi counter).map
        fun t => answers ++ t.map fun st => st.best.bestId := by
  induction iters generalizing topi counter answers with
  | zero => simp [merge_loop, merge_steps]
  | succ iters ih =>
    unfold merge_loop merge_steps
    cases hscan : scan_all fltMax results counter nshards k with
    | none => rfl
    | some b =>
      simp only []
      by_cases hneg : b.fromShard < 0
      · rw [if_pos hneg, if_pos hneg]; rfl
      · rw [if_neg hneg, if_neg hneg]
        cases hc : counter[b.fromShard.toNat]? with
        | none => rfl
        | some c =>
          simp only []
          rw [ih (topi + 1)]
          cases merge_steps fltMax results nshards k iters (topi + 1)
              (counter.set b.fromShard.toNat (c + 1)) with
          | none => rfl
          | some rest => simp

theorem mem_le_sum (l : List Nat) (c : Nat) (h : c ∈ l) : c ≤ l.sum := by
  obtain ⟨n, hn⟩ := List.mem_iff_getElem?.mp h
  exact getElem?_le_sum l n c hn

/-- On a usable input with at least one shard the inner loop leaves in `bestDist`,
`bestId`, `fromShard` the distance and the id at the cursor of a shard in
`[0, nshards)`, the distance being below the initial `bestDist`. -/
theorem scan_all_reads {α : Type} [LinearOrder α] (fltMax : α)
    (results : List (PartialResult α)) (counter : List Nat) (nshards k : Nat)
    (hn : 1 ≤ nshards) (hin : MergeInput fltMax results nshards k)
    (hlen : counter.length = nshards) (hsum : counter.sum < k) :
    ∃ b s r c, scan_all fltMax results counter nshards k = some b ∧ s < nshards ∧
      b.fromShard = (s : Int) ∧ results[s]? = some r ∧ counter[s]? = some c ∧
      r.dists[c]? = some b.bestDist ∧ r.ids[c]? = some b.bestId ∧ b.bestDist < fltMax := by
  obtain ⟨s, hs, hscan, -, -⟩ :=
    scan_all_selects fltMax results counter nshards k hn hin hlen hsum
  obtain ⟨c, r, hc, -, hr, hd, hi⟩ :=
    in_bounds_of_input fltMax results counter nshards k hin hlen hsum s hs
  have e1 : cur_dist fltMax results counter s = r.dists[c] := by
    simp [cur_dist, List.getD_eq_getElem?_getD, hc, hr, List.getElem?_eq_getElem hd]
  have e2 : cur_id results counter s = r.ids[c] := by
    simp [cur_id, List.getD_eq_getElem?_getD, hc, hr, List.getElem?_eq_getElem hi]
  refine ⟨_, s, r, c, hscan, hs, rfl, hr, hc, ?_, ?_, ?_⟩
  · rw [List.getElem?_eq_getElem hd, e1]
  · rw [List.getElem?_eq_getElem hi, e2]
  · exact cur_dist_lt fltMax results counter nshards k hin hlen hsum s hs

theorem merge_steps_safe {α : Type} [LinearOrder α] (fltMax : α)
    (results : List (PartialResult α)) (nshards k : Nat) (hn : 1 ≤ nshards)
    (hin : MergeInput fltMax results nshards k) (iters topi : Nat) (counter : List Nat)
    (hlen : counter.length = nshards) (hsum : counter.sum = topi) (hk : topi + iters = k) :
    ∃ trace, merge_steps fltMax results nshards k iters topi counter = some trace ∧
      trace.map (fun st => st.topi) = List.range' topi iters ∧
      ∀ st ∈ trace, StepSafe fltMax results nshards k st := by
  induction iters generalizing topi counter with
  | zero => exact ⟨[], rfl, rfl, fun st hst => absurd hst (List.not_mem_nil st)⟩
  | succ iters ih =>
    obtain ⟨b, s, r, c, hscan, hs, hfrom, hr, hc, hd, hi, hlt⟩ :=
      scan_all_reads fltMax results counter nshards k hn hin hlen (by omega)
    obtain ⟨rest, h1, h2, h3⟩ := ih (topi + 1) (counter.set s (c + 1)) (by simp [hlen])
      (by rw [sum_set_succ counter s c hc]; omega) (by omega)
    refine ⟨⟨topi, counter, b⟩ :: rest, ?_, ?_, ?_⟩
    · unfold merge_steps
      simp only [hscan, hfrom, Int.toNat_ofNat, hc, h1]
      rw [if_neg (by omega)]
    · simp only [List.map_cons, h2]
      rfl
    · intro st hst
      rcases List.mem_cons.mp hst with rfl | hst
      · refine ⟨by show topi < k; omega, hlen, hsum, ?_, s, r, c, hs, hfrom, hr, hc, hd, hi, hlt⟩
        intro x hx
        have := mem_le_sum counter x hx
        show x < k
        omega
      · exact h3 st hst

/-- C11 (as stated, refuted): with one shard, `k = 1`, the distance `0` (strictly below
the initial `bestDist`) and the id `-1`, the single iteration selects shard 0 with the
cursor 0, and `bestId` is `-1`, the value it was initialised with. -/
theorem merge_best_id_minus_one :
    MergeInput FLT_MAX [(⟨[0], [-1], true, 1, 0⟩ : PartialResult ℚ)] 1 1 ∧
    merge_results_steps FLT_MAX [(⟨[0], [-1], true, 1, 0⟩ : PartialResult ℚ)] 1 1 =
      some [⟨0, [0], ⟨0, -1, 0⟩⟩] ∧
    merge_results FLT_MAX [(⟨[0], [-1], true, 1, 0⟩ : PartialResult ℚ)] 1 1 = some [-1] ∧
    ¬ ∀ st ∈ ([⟨0, [0], ⟨0, -1, 0⟩⟩] : List (MergeStep ℚ)), st.best.bestId ≠ -1 := by
  refine ⟨?_, ?_, ?_, ?_⟩
  · refine ⟨rfl, ?_⟩
    intro r hr
    simp only [List.mem_singleton] at hr
    subst hr
    refine ⟨by simp, by simp, ?_⟩
    intro j hj d hd
    have hj0 : j = 0 := by omega
    subst hj0
    simp only [List.getElem?_cons_zero, Option.some.injEq] at hd
    subst hd
    norm_num [FLT_MAX]
  · simp [merge_results_steps, merge_steps, scan_all, scan_shard, List.range,
      List.range.loop, Best.init, FLT_MAX]
  · simp [merge_results, merge_loop, scan_all, scan_shard, List.range, List.range.loop,
      Best.init, FLT_MAX]
  · simp

/-- C11 (amended): for `nshards >= 1` and one input per shard with at least `k`
distances and ids, the first `k` distances strictly below the initial `bestDist`,
`merge_results` runs its `k` iterations `topi = 0 .. k-1`, the ids it writes being the
`bestId` of the iterations; at every iteration `counter` has `nshards` entries that sum
to `topi` and are all below `k` (so every read `dists[counter[shard]]` is below `k`),
`fromShard` is a shard `s` in `[0, nshards)` when `counter[fromShard]` is incremented,
`bestDist` and `bestId` are the distance and the id at the cursor of `s`, and `bestDist`
is below its initial value; `bestId` differs from `-1` when no input id is `-1`. -/
theorem merge_results_iterations {α : Type} [LinearOrder α] (fltMax : α)
    (results : List (PartialResult α)) (nshards k : Nat) (hn : 1 ≤ nshards)
    (hin : MergeInput fltMax results nshards k) :
    ∃ trace, merge_results_steps fltMax results nshards k = some trace ∧
      trace.map (fun st => st.topi) = List.range k ∧
      merge_results fltMax results nshards k = some (trace.map fun st => st.best.bestId) ∧
      ∀ st ∈ trace,
        st.topi < k ∧ st.counter.length = nshards ∧ st.counter.sum = st.topi ∧
        (∀ c ∈ st.counter, c < k) ∧
        (∃ s r c, s < nshards ∧ st.best.fromShard = (s : Int) ∧ results[s]? = some r ∧
          st.counter[s]? = some c ∧ r.dists[c]? = some st.best.bestDist ∧
          r.ids[c]? = some st.best.bestId ∧ st.best.bestDist < fltMax) ∧
        ((∀ r ∈ results, ∀ i ∈ r.ids, i ≠ -1) → st.best.bestId ≠ -1) := by
  obtain ⟨trace, h1, h2, h3⟩ := merge_steps_safe fltMax results nshards k hn hin k 0
    (List.replicate nshards 0) (by simp) (by simp) (by omega)
  refine ⟨trace, h1, ?_, ?_, ?_⟩
  · rw [h2, List.range_eq_range']
  · unfold merge_results
    rw [merge_loop_eq_steps fltMax results nshards k k 0, h1]
    simp
  · intro st hst
    obtain ⟨a1, a2, a3, a4, s, r, c, hs, hfrom, hr, hc, hd, hi, hlt⟩ := h3 st hst
    refine ⟨a1, a2, a3, a4, ⟨s, r, c, hs, hfrom, hr, hc, hd, hi, hlt⟩, ?_⟩
    intro hids
    exact hids r (List.getElem?_mem hr) _ (List.getElem?_mem hi)

theorem merge_results_iterations_witness :
    MergeInput FLT_MAX
      [ofPairs [(1, 10), (2, 11), (5, 12)], ofPairs [(3 / 2, 20), (3, 21), (4, 22)]] 2 3 ∧
    ∃ trace, merge_results_steps FLT_MAX
        [ofPairs [(1, 10), (2, 11), (5, 12)], ofPairs [(3 / 2, 20), (3, 21), (4, 22)]] 2 3
          = some trace ∧
      trace.map (fun st => st.topi) = List.range 3 := by
  have hin : MergeInput FLT_MAX
      [ofPairs [(1, 10), (2, 11), (5, 12)], ofPairs [(3 / 2, 20), (3, 21), (4, 22)]] 2 3 := by
    apply merge_input_ofPairs FLT_MAX
      [[(1, 10), (2, 11), (5, 12)], [(3 / 2, 20), (3, 21), (4, 22)]] 2 3 rfl
    · intro l hl
      simp only [List.mem_cons, List.mem_singleton, List.not_mem_nil, or_false] at hl
      rcases hl with rfl | rfl <;> simp
    · intro l hl p hp
      simp only [List.mem_cons, List.mem_singleton, List.not_mem_nil, or_false] at hl
      rcases hl with rfl | rfl
      · simp only [List.take, List.mem_cons, List.mem_singleton, List.not_mem_nil,
          or_false] at hp
        rcases hp with rfl | rfl | rfl <;> norm_num [FLT_MAX]
      · simp only [List.take, List.mem_cons, List.mem_singleton, List.not_mem_nil,
          or_false] at hp
        rcases hp with rfl | rfl | rfl <;> norm_num [FLT_MAX]
  obtain ⟨trace, h1, h2, -⟩ := merge_results_iterations FLT_MAX
    [ofPairs [(1, 10), (2, 11), (5, 12)], ofPairs [(3 / 2, 20), (3, 21), (4, 22)]] 2 3
    (by decide) hin
  exact ⟨hin, trace, h1, h2⟩


end Distributed
